import Mathlib

/-!
Verification of the repository's specification against its code.

The development has two parts:

* `ArangoTest`: embeddings of code that is present verbatim under the
  repository sources — the `compareTicks` comparator of the replication
  test suite and the `ManagedDocumentResult` move-assignment operator.
* `LSM`: a model of the log-structured-merge storage engine described by
  the specification (internal-key ordering, memtable, write path,
  compaction, SST format, block cache).  The engine's implementation
  files are declared in the repository's build script but their sources
  are not part of the repository snapshot, so these definitions are
  modelled from the specification text.
-/

namespace ArangoTest

/-- `compareTicks` normalizes a `null` argument to the string `"0"`
(`if (l === null) l = "0";` in the test source). -/
def normTick : Option String → String
  | none => "0"
  | some s => s

/-- The character-scan loop of `compareTicks`: walk two equal-length
character lists and decide on the first differing position
(`for (let i = 0; i < l.length; ++i) { if (l[i] !== r[i]) ... }`). -/
def cmpTickChars : List Char → List Char → Int
  | a :: as, b :: bs => if a ≠ b then (if a < b then -1 else 1) else cmpTickChars as bs
  | _, _ => 0

/-- `compareTicks(l, r)` from the replication test: normalize nulls to
`"0"`, order by length first, then by the first differing character. -/
def compareTicks (l r : Option String) : Int :=
  let ls := normTick l
  let rs := normTick r
  if ls.length ≠ rs.length then
    (if (ls.length : Int) - (rs.length : Int) < 0 then -1 else 1)
  else
    cmpTickChars ls.data rs.data

theorem cmpTickChars_range (as bs : List Char) :
    cmpTickChars as bs = -1 ∨ cmpTickChars as bs = 0 ∨ cmpTickChars as bs = 1 := by
  induction as generalizing bs with
  | nil => cases bs <;> simp [cmpTickChars]
  | cons a as ih =>
    cases bs with
    | nil => simp [cmpTickChars]
    | cons b bs =>
      by_cases hab : a = b
      · simpa [cmpTickChars, hab] using ih bs
      · by_cases hlt : a < b <;> simp [cmpTickChars, hab, hlt]

theorem cmpTickChars_eq_zero (as bs : List Char) (h : as.length = bs.length) :
    cmpTickChars as bs = 0 ↔ as = bs := by
  induction as generalizing bs with
  | nil =>
    cases bs with
    | nil => simp [cmpTickChars]
    | cons b bs => simp at h
  | cons a as ih =>
    cases bs with
    | nil => simp at h
    | cons b bs =>
      simp only [List.length_cons, Nat.succ.injEq] at h
      by_cases hab : a = b
      · subst hab
        simpa [cmpTickChars] using ih bs h
      · by_cases hlt : a < b <;> simp [cmpTickChars, hab, hlt]

theorem cmpTickChars_neg (as bs : List Char) :
    cmpTickChars as bs = - cmpTickChars bs as := by
  induction as generalizing bs with
  | nil => cases bs <;> simp [cmpTickChars]
  | cons a as ih =>
    cases bs with
    | nil => simp [cmpTickChars]
    | cons b bs =>
      by_cases hab : a = b
      · subst hab
        simpa [cmpTickChars] using ih bs
      · have hab' : b ≠ a := fun h => hab h.symm
        rcases lt_or_gt_of_ne hab with hlt | hgt
        · simp [cmpTickChars, hab, hab', hlt, not_lt_of_gt hlt]
        · simp [cmpTickChars, hab, hab', hgt, not_lt_of_gt hgt]

theorem cmpTickChars_firstdiff (p s t : List Char) (a b : Char) (hab : a ≠ b) :
    cmpTickChars (p ++ a :: s) (p ++ b :: t) = if a < b then -1 else 1 := by
  induction p with
  | nil => simp [cmpTickChars, hab]
  | cons c p ih => simpa [cmpTickChars] using ih

/-- C10: `compareTicks` is a total-order comparator on tick strings:
after normalizing `null` to `"0"` it returns only `-1`, `0` or `1`;
it returns `0` iff the normalized strings are equal; a shorter string
orders strictly before a longer one; equal-length strings are ordered
by their first differing character; and it is antisymmetric,
`compareTicks(l, r) = -compareTicks(r, l)`. -/
theorem compareTicks_total_order_spec (l r : Option String) :
    (compareTicks l r = -1 ∨ compareTicks l r = 0 ∨ compareTicks l r = 1) ∧
    (compareTicks l r = 0 ↔ normTick l = normTick r) ∧
    ((normTick l).length < (normTick r).length → compareTicks l r = -1) ∧
    ((normTick r).length < (normTick l).length → compareTicks l r = 1) ∧
    (∀ (p s t : List Char) (a b : Char), a ≠ b → s.length = t.length →
      normTick l = String.mk (p ++ a :: s) → normTick r = String.mk (p ++ b :: t) →
      compareTicks l r = if a < b then -1 else 1) ∧
    compareTicks l r = - compareTicks r l := by
  set ls := normTick l with hls
  set rs := normTick r with hrs
  have hlen : ls.length = ls.data.length := rfl
  have hrlen : rs.length = rs.data.length := rfl
  refine ⟨?_, ?_, ?_, ?_, ?_, ?_⟩
  · by_cases h : ls.length ≠ rs.length
    · by_cases h2 : (ls.length : Int) - (rs.length : Int) < 0 <;>
        simp [compareTicks, ← hls, ← hrs, h, h2]
    · simpa [compareTicks, ← hls, ← hrs, h] using cmpTickChars_range ls.data rs.data
  · by_cases h : ls.length ≠ rs.length
    · have hne : ls ≠ rs := by
        intro hEq
        exact h (by rw [hEq])
      by_cases h2 : (ls.length : Int) - (rs.length : Int) < 0 <;>
        simp [compareTicks, ← hls, ← hrs, h, h2, hne]
    · push_neg at h
      have hd : ls.data.length = rs.data.length := by
        rw [← hlen, ← hrlen]; exact h
      have := cmpTickChars_eq_zero ls.data rs.data hd
      have hiff : ls.data = rs.data ↔ ls = rs := by
        constructor
        · intro hEq
          exact String.ext hEq
        · intro hEq; rw [hEq]
      simp only [compareTicks, ← hls, ← hrs]
      rw [if_neg (by simpa using h)]
      rw [this, hiff]
  · intro hlt
    have h : ls.length ≠ rs.length := Nat.ne_of_lt hlt
    have h2 : (ls.length : Int) - (rs.length : Int) < 0 := by
      omega
    simp [compareTicks, ← hls, ← hrs, h, h2]
  · intro hlt
    have h : ls.length ≠ rs.length := Nat.ne_of_gt hlt
    have h2 : ¬ ((ls.length : Int) - (rs.length : Int) < 0) := by
      omega
    simp [compareTicks, ← hls, ← hrs, h, h2]
  · intro p s t a b hab hst hpl hpr
    have hdl : ls.data = p ++ a :: s := by rw [hpl]
    have hdr : rs.data = p ++ b :: t := by rw [hpr]
    have h : ¬ ls.length ≠ rs.length := by
      rw [hlen, hrlen, hdl, hdr]
      simp [hst]
    simp only [compareTicks, ← hls, ← hrs]
    rw [if_neg h, hdl, hdr]
    exact cmpTickChars_firstdiff p s t a b hab
  · by_cases h : ls.length ≠ rs.length
    · have h' : rs.length ≠ ls.length := fun hEq => h hEq.symm
      have hΔ : (ls.length : Int) - (rs.length : Int) < 0 ∨
          (rs.length : Int) - (ls.length : Int) < 0 := by
        omega
      rcases hΔ with h2 | h2
      · have h3 : ¬ ((rs.length : Int) - (ls.length : Int) < 0) := by omega
        simp [compareTicks, ← hls, ← hrs, h, h', h2, h3]
      · have h3 : ¬ ((ls.length : Int) - (rs.length : Int) < 0) := by omega
        simp [compareTicks, ← hls, ← hrs, h, h', h2, h3]
    · have h' : ¬ rs.length ≠ ls.length := by
        push_neg at h ⊢; exact h.symm
      simp only [compareTicks, ← hls, ← hrs]
      rw [if_neg h, if_neg h']
      exact cmpTickChars_neg ls.data rs.data

/-- Witness for C10 at concrete ticks: `"9" < "10"` by length,
`"12" < "13"` by first differing character, and `null` equals `"0"`. -/
theorem compareTicks_total_order_spec_witness :
    compareTicks (some "9") (some "10") = -1 ∧
    compareTicks (some "12") (some "13") = -1 ∧
    compareTicks none (some "0") = 0 := by
  refine ⟨?_, ?_, ?_⟩
  · exact (compareTicks_total_order_spec (some "9") (some "10")).2.2.1 (by decide)
  · exact (compareTicks_total_order_spec (some "12") (some "13")).2.2.2.2.1
      ['1'] [] [] '2' '3' (by decide) rfl (by decide) (by decide) |>.trans (by decide)
  · exact (compareTicks_total_order_spec none (some "0")).2.1.mpr rfl

/-- State of an `arangod/VocBase/ManagedDocumentResult.h` object.  The
bytes the `_vpack` pointer refers to are modelled as the byte list it
points at (`none` for `nullptr`); `_string` is the owned string buffer;
`_localDocumentId` is modelled as a `Nat`. -/
structure ManagedDocumentResult where
  length : Nat
  localDocumentId : Nat
  vpack : Option (List Nat)
  stringBuf : List Nat
  managed : Bool
  useString : Bool
deriving DecidableEq

/-- Modelled from the spec: the body of `ManagedDocumentResult::reset` is not in
the repository snapshot (only its declaration in `ManagedDocumentResult.h`);
it releases any owned storage and clears every field back to the
default-constructed state. -/
def ManagedDocumentResult.reset (_m : ManagedDocumentResult) : ManagedDocumentResult :=
  { length := 0, localDocumentId := 0, vpack := none, stringBuf := [],
    managed := false, useString := false }

/-- Modelled from the spec: the body of `ManagedDocumentResult::setUnmanaged` is not in
the repository snapshot (only its declaration, commented "add unmanaged vpack");
it resets the object and then stores the caller's vpack pointer and document id
without taking ownership. -/
def ManagedDocumentResult.setUnmanaged (m : ManagedDocumentResult)
    (vpack : Option (List Nat)) (documentId : Nat) : ManagedDocumentResult :=
  { m.reset with vpack := vpack, localDocumentId := documentId }

/-- Modelled from the spec: the body of
`ManagedDocumentResult::setManaged(std::string&&, LocalDocumentId const&)` is not in
the repository snapshot (only its declaration); it resets the object, takes over
the string buffer, points `_vpack` at the string's bytes, stores the document id
and marks the object string-backed. -/
def ManagedDocumentResult.setManagedString (m : ManagedDocumentResult)
    (str : List Nat) (documentId : Nat) : ManagedDocumentResult :=
  { m.reset with
    stringBuf := str, vpack := some str,
    localDocumentId := documentId, useString := true }

/-- `ManagedDocumentResult::empty()` from the header: `_vpack == nullptr`. -/
def ManagedDocumentResult.emptyDoc (m : ManagedDocumentResult) : Bool :=
  m.vpack.isNone

/-- `ManagedDocumentResult::canUseInExternal()` from the header:
`!_managed && !_useString`. -/
def ManagedDocumentResult.canUseInExternal (m : ManagedDocumentResult) : Bool :=
  !m.managed && !m.useString

/-- The managed branch of the move-assignment: `reset(); _vpack = other._vpack;
_length = other._length; _localDocumentId = other._localDocumentId; _managed = true;`. -/
def ManagedDocumentResult.takeManaged (a b : ManagedDocumentResult) : ManagedDocumentResult :=
  { a.reset with
    vpack := b.vpack, length := b.length,
    localDocumentId := b.localDocumentId, managed := true }

/-- `ManagedDocumentResult::operator=(ManagedDocumentResult&&)` from the
header, returning the new states of the assigned-to object and of the
moved-from object. -/
def ManagedDocumentResult.moveAssign (a b : ManagedDocumentResult) :
    ManagedDocumentResult × ManagedDocumentResult :=
  if b.useString then
    (a.setManagedString b.stringBuf b.localDocumentId,
     ({ b with managed := false }).reset)
  else if b.managed then
    (a.takeManaged b, ({ b with managed := false }).reset)
  else
    (a.setUnmanaged b.vpack b.localDocumentId, b)

/-- C9: after `a = std::move(b)`: if `b` was string-backed or managed, `a`
holds `b`'s former document (same vpack bytes, `_length` and
`_localDocumentId`) with ownership transferred (`canUseInExternal` is
false on `a`), and `b` is left in the empty reset state (`empty()` true,
`_managed` and `_useString` false); if `b` was unmanaged, `a` receives
`b`'s `_vpack` pointer and `_localDocumentId` via `setUnmanaged` and `b`
is unchanged, so both alias the same document. -/
theorem ManagedDocumentResult.moveAssign_spec (a b : ManagedDocumentResult)
    (hb : b.useString = true → b.vpack = some b.stringBuf ∧ b.length = 0) :
    (b.useString = true ∨ b.managed = true →
      (a.moveAssign b).1.vpack = b.vpack ∧
      (a.moveAssign b).1.length = b.length ∧
      (a.moveAssign b).1.localDocumentId = b.localDocumentId ∧
      (a.moveAssign b).1.canUseInExternal = false ∧
      (a.moveAssign b).2.emptyDoc = true ∧
      (a.moveAssign b).2.managed = false ∧
      (a.moveAssign b).2.useString = false) ∧
    (b.useString = false → b.managed = false →
      (a.moveAssign b).1.vpack = b.vpack ∧
      (a.moveAssign b).1.localDocumentId = b.localDocumentId ∧
      (a.moveAssign b).1.canUseInExternal = true ∧
      (a.moveAssign b).2 = b) := by
  constructor
  · intro hcase
    by_cases hu : b.useString = true
    · obtain ⟨hvp, hlen⟩ := hb hu
      simp [moveAssign, hu, setManagedString, reset, canUseInExternal, emptyDoc,
        hvp, hlen]
    · have hm : b.managed = true := by
        rcases hcase with h | h
        · exact absurd h hu
        · exact h
      simp [moveAssign, hu, hm, takeManaged, reset, canUseInExternal, emptyDoc]
  · intro hu hm
    simp [moveAssign, hu, hm, setUnmanaged, reset, canUseInExternal, emptyDoc]

/-- Witness for C9: moving out of a concrete string-backed object
transfers its vpack bytes and leaves the source empty. -/
theorem ManagedDocumentResult.moveAssign_spec_witness :
    (ManagedDocumentResult.moveAssign
        ⟨0, 0, none, [], false, false⟩ ⟨0, 7, some [1, 2], [1, 2], false, true⟩).1.vpack
      = some [1, 2] ∧
    (ManagedDocumentResult.moveAssign
        ⟨0, 0, none, [], false, false⟩ ⟨0, 7, some [1, 2], [1, 2], false, true⟩).2.emptyDoc
      = true := by
  have h := ManagedDocumentResult.moveAssign_spec
    ⟨0, 0, none, [], false, false⟩ ⟨0, 7, some [1, 2], [1, 2], false, true⟩
    (fun _ => ⟨rfl, rfl⟩)
  exact ⟨(h.1 (Or.inl rfl)).1, (h.1 (Or.inl rfl)).2.2.2.2.1⟩

end ArangoTest

namespace LSM

/-- Modelled from the spec: a user key is a byte sequence (spec §3,
`InternalKey = (user_key: byte sequence, ...)`); bytes are modelled as
naturals. -/
abbrev UserKey := List Nat

/-- Modelled from the spec: the byte-wise lexicographic comparison of user
keys implied by "ascending by user_key" (spec §3); the comparator code
itself is not under `src/` (only `util/comparator.cc` is named in the build
script). -/
def compareBytes : List Nat → List Nat → Ordering
  | [], [] => .eq
  | [], _ :: _ => .lt
  | _ :: _, [] => .gt
  | a :: as, b :: bs =>
    match compare a b with
    | .lt => .lt
    | .gt => .gt
    | .eq => compareBytes as bs

/-- Modelled from the spec: the value types of an internal key,
`{Put, Delete, Merge, SingleDelete, RangeDeleteBegin}` (spec §3). -/
inductive ValueType where
  | put
  | delete
  | merge
  | singleDelete
  | rangeDeleteBegin
deriving DecidableEq

/-- Numeric tag of a value type, used only to break full ties in the
internal-key order ("further ties by value_type", spec §3). -/
def ValueType.code : ValueType → Nat
  | .delete => 0
  | .put => 1
  | .merge => 2
  | .singleDelete => 7
  | .rangeDeleteBegin => 15

/-- Modelled from the spec: `InternalKey = (user_key, sequence_number,
value_type)` (spec §3); the engine's `db/dbformat.cc` is not under `src/`. -/
structure InternalKey where
  userKey : UserKey
  seq : Nat
  vtype : ValueType
deriving DecidableEq

/-- Modelled from the spec: the internal-key order — ascending by
`user_key`, ties broken by descending `sequence_number`, further ties by
`value_type` (spec §3). -/
def ikCompare (a b : InternalKey) : Ordering :=
  (compareBytes a.userKey b.userKey).then
    ((compare b.seq a.seq).then (compare b.vtype.code a.vtype.code))

/-- Strict internal-key order. -/
def ikLT (a b : InternalKey) : Prop := ikCompare a b = .lt

instance : DecidablePred fun p : InternalKey × InternalKey => ikLT p.1 p.2 :=
  fun _ => by unfold ikLT; infer_instance

theorem natCompare_swap (a b : Nat) : compare b a = (compare a b).swap := by
  rcases Nat.lt_trichotomy a b with h | h | h
  · rw [Nat.compare_eq_gt.2 h, Nat.compare_eq_lt.2 h]; rfl
  · subst h; rw [Nat.compare_eq_eq.2 rfl]; rfl
  · rw [Nat.compare_eq_lt.2 h, Nat.compare_eq_gt.2 h]; rfl

theorem natCompare_trans {a b c : Nat} (h1 : compare a b = .lt)
    (h2 : compare b c = .lt) : compare a c = .lt :=
  Nat.compare_eq_lt.2 (lt_trans (Nat.compare_eq_lt.1 h1) (Nat.compare_eq_lt.1 h2))

theorem compareBytes_eq_iff (as bs : List Nat) :
    compareBytes as bs = .eq ↔ as = bs := by
  induction as generalizing bs with
  | nil => cases bs <;> simp [compareBytes]
  | cons a as ih =>
    cases bs with
    | nil => simp [compareBytes]
    | cons b bs =>
      simp only [compareBytes]
      cases hab : compare a b with
      | lt =>
        have hne : a ≠ b := Nat.ne_of_lt (Nat.compare_eq_lt.1 hab)
        simp [hne]
      | gt =>
        have hne : a ≠ b := (Nat.ne_of_lt (Nat.compare_eq_gt.1 hab)).symm
        simp [hne]
      | eq =>
        have hab' := Nat.compare_eq_eq.1 hab
        subst hab'
        simpa using ih bs

theorem compareBytes_swap (as bs : List Nat) :
    compareBytes bs as = (compareBytes as bs).swap := by
  induction as generalizing bs with
  | nil => cases bs <;> rfl
  | cons a as ih =>
    cases bs with
    | nil => rfl
    | cons b bs =>
      simp only [compareBytes, natCompare_swap a b]
      cases hab : compare a b with
      | lt => rfl
      | gt => rfl
      | eq => simpa [Ordering.swap] using ih bs

theorem compareBytes_trans {as bs cs : List Nat}
    (h1 : compareBytes as bs = .lt) (h2 : compareBytes bs cs = .lt) :
    compareBytes as cs = .lt := by
  induction as generalizing bs cs with
  | nil =>
    cases bs with
    | nil => simp [compareBytes] at h1
    | cons b bs =>
      cases cs with
      | nil => simp [compareBytes] at h2
      | cons c cs => simp [compareBytes]
  | cons a as ih =>
    cases bs with
    | nil => simp [compareBytes] at h1
    | cons b bs =>
      cases cs with
      | nil => simp [compareBytes] at h2
      | cons c cs =>
        simp only [compareBytes] at h1 h2 ⊢
        cases hab : compare a b with
        | gt => simp [hab] at h1
        | lt =>
          cases hbc : compare b c with
          | gt => simp [hbc] at h2
          | lt => simp [natCompare_trans hab hbc]
          | eq =>
            have := Nat.compare_eq_eq.1 hbc
            subst this
            simp [hab]
        | eq =>
          have := Nat.compare_eq_eq.1 hab
          subst this
          cases hbc : compare a c with
          | gt => simp [hbc] at h2
          | lt => simp [hbc]
          | eq =>
            simp only [hab] at h1
            simp only [hbc] at h2 ⊢
            exact ih h1 h2

theorem vtypeCode_inj {t u : ValueType} (h : t.code = u.code) : t = u := by
  cases t <;> cases u <;> first | rfl | simp [ValueType.code] at h

theorem ikCompare_eq_iff (a b : InternalKey) : ikCompare a b = .eq ↔ a = b := by
  unfold ikCompare
  rw [Ordering.then_eq_eq, Ordering.then_eq_eq, compareBytes_eq_iff,
    Nat.compare_eq_eq, Nat.compare_eq_eq]
  constructor
  · rintro ⟨h1, h2, h3⟩
    cases a; cases b
    simp only at h1 h2 h3
    simp [h1, h2.symm, vtypeCode_inj h3]
  · rintro rfl
    exact ⟨rfl, rfl, rfl⟩

theorem ikCompare_swap (a b : InternalKey) :
    ikCompare b a = (ikCompare a b).swap := by
  unfold ikCompare
  rw [Ordering.swap_then, Ordering.swap_then, ← compareBytes_swap,
    ← natCompare_swap, ← natCompare_swap]

theorem ikCompare_trans {a b c : InternalKey}
    (h1 : ikCompare a b = .lt) (h2 : ikCompare b c = .lt) :
    ikCompare a c = .lt := by
  unfold ikCompare at h1 h2 ⊢
  rw [Ordering.then_eq_lt] at h1 h2 ⊢
  rcases h1 with h1 | ⟨h1e, h1r⟩
  · rcases h2 with h2 | ⟨h2e, h2r⟩
    · exact Or.inl (compareBytes_trans h1 h2)
    · rw [compareBytes_eq_iff] at h2e
      rw [← h2e]
      exact Or.inl h1
  · rw [compareBytes_eq_iff] at h1e
    rcases h2 with h2 | ⟨h2e, h2r⟩
    · rw [h1e]
      exact Or.inl h2
    · rw [compareBytes_eq_iff] at h2e
      refine Or.inr ⟨by rw [h1e, h2e, compareBytes_eq_iff], ?_⟩
      rw [Ordering.then_eq_lt] at h1r h2r ⊢
      rcases h1r with h1r | ⟨h1re, h1rr⟩
      · rcases h2r with h2r | ⟨h2re, h2rr⟩
        · exact Or.inl (natCompare_trans h2r h1r)
        · rw [Nat.compare_eq_eq] at h2re
          rw [h2re]
          exact Or.inl h1r
      · rw [Nat.compare_eq_eq] at h1re
        rcases h2r with h2r | ⟨h2re, h2rr⟩
        · rw [← h1re]
          exact Or.inl h2r
        · rw [Nat.compare_eq_eq] at h2re
          refine Or.inr ⟨Nat.compare_eq_eq.2 (h2re.trans h1re), ?_⟩
          exact natCompare_trans h2rr h1rr

theorem ikLT_seq_le {a b : InternalKey} (h : ikCompare a b = .lt)
    (huk : a.userKey = b.userKey) : b.seq ≤ a.seq := by
  unfold ikCompare at h
  rw [Ordering.then_eq_lt] at h
  rcases h with h | ⟨-, h⟩
  · rw [huk, (compareBytes_eq_iff _ _).2 rfl] at h
    cases h
  · rw [Ordering.then_eq_lt] at h
    rcases h with h | ⟨he, -⟩
    · exact le_of_lt (Nat.compare_eq_lt.1 h)
    · exact le_of_eq (Nat.compare_eq_eq.1 he)

/-- C5: the internal-key ordering is a total order given
lexicographically by ascending user key, then descending sequence
number, then value type; in a strictly sorted run, among entries sharing
a user key the one with the greatest sequence number appears first. -/
theorem internalKey_order_spec (a b c : InternalKey) :
    (ikCompare a b = .eq ↔ a = b) ∧
    (ikCompare b a = (ikCompare a b).swap) ∧
    (ikCompare a b = .lt → ikCompare b c = .lt → ikCompare a c = .lt) ∧
    (compareBytes a.userKey b.userKey = .lt → ikCompare a b = .lt) ∧
    (a.userKey = b.userKey → b.seq < a.seq → ikCompare a b = .lt) ∧
    (a.userKey = b.userKey → a.seq = b.seq →
      ikCompare a b = compare b.vtype.code a.vtype.code) ∧
    (∀ l : List InternalKey, List.Pairwise ikLT l →
      List.Pairwise (fun x y => x.userKey = y.userKey → y.seq ≤ x.seq) l) := by
  refine ⟨ikCompare_eq_iff a b, ikCompare_swap a b, ikCompare_trans, ?_, ?_, ?_, ?_⟩
  · intro h
    unfold ikCompare
    rw [Ordering.then_eq_lt]
    exact Or.inl h
  · intro huk hseq
    unfold ikCompare
    rw [Ordering.then_eq_lt]
    refine Or.inr ⟨by rw [huk, compareBytes_eq_iff], ?_⟩
    rw [Ordering.then_eq_lt]
    exact Or.inl (Nat.compare_eq_lt.2 hseq)
  · intro huk hseq
    unfold ikCompare
    rw [huk, (compareBytes_eq_iff _ _).2 rfl, hseq, Nat.compare_eq_eq.2 rfl]
    rfl
  · intro l hl
    exact hl.imp fun h huk => ikLT_seq_le h huk

/-- Witness for C5 at concrete keys: key `[1]` sorts before `[2]`, and a
newer version of `[1]` sorts before an older one. -/
theorem internalKey_order_spec_witness :
    ikCompare ⟨[1], 5, .put⟩ ⟨[2], 3, .put⟩ = .lt ∧
    ikCompare ⟨[1], 5, .put⟩ ⟨[1], 2, .put⟩ = .lt := by
  have h := internalKey_order_spec ⟨[1], 5, .put⟩ ⟨[2], 3, .put⟩ ⟨[2], 3, .put⟩
  have h2 := internalKey_order_spec ⟨[1], 5, .put⟩ ⟨[1], 2, .put⟩ ⟨[1], 2, .put⟩
  exact ⟨h.2.2.2.1 (by decide), h2.2.2.2.2.1 rfl (by decide)⟩

/-- Modelled from the spec: an entry is an internal key plus a value
payload, empty for deletes (spec §3); `db/memtable.cc` is not under
`src/`. -/
structure Entry where
  key : InternalKey
  value : List Nat
deriving DecidableEq

/-- Weak internal-key order on entries (`a` sorts no later than `b`). -/
def entryLE (a b : Entry) : Prop := ikCompare a.key b.key ≠ .gt

instance : DecidableRel entryLE := fun a b => by
  unfold entryLE; infer_instance

theorem ikLE_total (a b : Entry) : entryLE a b ∨ entryLE b a := by
  unfold entryLE
  rw [ikCompare_swap a.key b.key]
  cases hab : ikCompare a.key b.key <;> simp [Ordering.swap]

theorem ikLE_trans {a b c : Entry} (h1 : entryLE a b) (h2 : entryLE b c) :
    entryLE a c := by
  unfold entryLE at h1 h2 ⊢
  cases hab : ikCompare a.key b.key with
  | gt => exact absurd hab h1
  | eq =>
    have := (ikCompare_eq_iff _ _).1 hab
    rw [this]
    exact h2
  | lt =>
    cases hbc : ikCompare b.key c.key with
    | gt => exact absurd hbc h2
    | eq =>
      have := (ikCompare_eq_iff _ _).1 hbc
      rw [← this]
      simp [hab]
    | lt => simp [ikCompare_trans hab hbc]

instance : IsTotal Entry entryLE := ⟨ikLE_total⟩

instance : IsTrans Entry entryLE := ⟨fun _ _ _ => ikLE_trans⟩

theorem ikLE_same_uk_seq {a b : Entry} (h : entryLE a b)
    (huk : a.key.userKey = b.key.userKey) : b.key.seq ≤ a.key.seq := by
  unfold entryLE at h
  cases hab : ikCompare a.key b.key with
  | gt => exact absurd hab h
  | lt => exact ikLT_seq_le hab huk
  | eq => rw [(ikCompare_eq_iff _ _).1 hab]

/-- Modelled from the spec: the MemTable is an ordered container of
entries (spec §3, §4.2), here the sorted list of its entries in
internal-key order. -/
abbrev MemTable := List Entry

/-- Modelled from the spec: `insert(InternalKey, value)` places the new
entry at its position in the ordered structure (spec §4.2). -/
def MemTable.insert (m : MemTable) (k : InternalKey) (v : List Nat) : MemTable :=
  m.orderedInsert entryLE ⟨k, v⟩

/-- A memtable is sorted when its entries are pairwise in internal-key
order. -/
def MemTable.Ordered (m : MemTable) : Prop := List.Sorted entryLE m

theorem MemTable.Ordered.insert {m : MemTable} (h : m.Ordered)
    (k : InternalKey) (v : List Nat) : (m.insert k v).Ordered := by
  unfold MemTable.Ordered MemTable.insert
  exact List.Sorted.orderedInsert ⟨k, v⟩ m h

/-- Result of a memtable point lookup (spec §4.2:
`get(user_key, max_sequence) -> value|tombstone|not_found`). -/
inductive GetResult where
  | value (v : List Nat)
  | tombstone
  | notFound
deriving DecidableEq

/-- Whether an entry is a candidate for `get(user_key, max_sequence)`:
its user key matches and its sequence number is at most the read point. -/
def entryVisible (uk : UserKey) (maxSeq : Nat) (e : Entry) : Bool :=
  e.key.userKey == uk && decide (e.key.seq ≤ maxSeq)

/-- How a found entry answers a lookup: deletion markers answer
`tombstone`, other types carry their payload. -/
def entryResult (e : Entry) : GetResult :=
  match e.key.vtype with
  | .delete => .tombstone
  | .singleDelete => .tombstone
  | .rangeDeleteBegin => .tombstone
  | _ => .value e.value

/-- Modelled from the spec: `get(user_key, max_sequence)` walks the
ordered structure and answers from the first matching entry whose
sequence number is at most `max_sequence` — which, by the internal-key
order, is the newest such entry (spec §4.2). -/
def MemTable.get (m : MemTable) (uk : UserKey) (maxSeq : Nat) : GetResult :=
  match m.find? (entryVisible uk maxSeq) with
  | some e => entryResult e
  | none => .notFound

/-- Modelled from the spec: a session write is a put or a delete
(spec §6, Write API). -/
inductive WriteOp where
  | putOp (k : UserKey) (v : List Nat)
  | delOp (k : UserKey)
deriving DecidableEq

/-- The user key a write targets. -/
def opKey : WriteOp → UserKey
  | .putOp k _ => k
  | .delOp k => k

/-- The internal key a write receives when committed at sequence `s`. -/
def opInternalKey : WriteOp → Nat → InternalKey
  | .putOp k _, s => ⟨k, s, .put⟩
  | .delOp k, s => ⟨k, s, .delete⟩

/-- The payload a write stores (empty for deletes, spec §3). -/
def opValue : WriteOp → List Nat
  | .putOp _ v => v
  | .delOp _ => []

/-- Modelled from the spec: applying a session's writes in submission
order, the i-th write receiving the i-th sequence number (the write path
assigns increasing sequence numbers, spec §4.1). -/
def applyFrom (m : MemTable) (s : Nat) : List WriteOp → MemTable
  | [] => m
  | op :: ops => applyFrom (m.insert (opInternalKey op s) (opValue op)) (s + 1) ops

/-- The memtable after a whole session starting from sequence 1. -/
def applySession (ops : List WriteOp) : MemTable := applyFrom [] 1 ops

/-- Modelled from the spec: a read with no snapshot given — the memtable
lookup at the current read point, with a tombstone reported as
`not_found` (spec §6, Read API). -/
def dbGet (m : MemTable) (uk : UserKey) (maxSeq : Nat) : GetResult :=
  match m.get uk maxSeq with
  | .tombstone => .notFound
  | r => r

/-- The most recent put/delete for a key in a session. -/
def lastWrite (ops : List WriteOp) (k : UserKey) : Option WriteOp :=
  (ops.filter fun op => opKey op == k).getLast?

theorem lsm_find?_filter (p : Entry → Bool) (l : List Entry) :
    l.find? p = (l.filter p).head? := by
  induction l with
  | nil => rfl
  | cons e l ih =>
    cases h : p e
    · rw [List.find?_cons_of_neg _ (by simp [h]),
        List.filter_cons_of_neg (by simp [h]), ih]
    · rw [List.find?_cons_of_pos _ (by simp [h]),
        List.filter_cons_of_pos (by simp [h])]
      rfl

theorem opInternalKey_seq (op : WriteOp) (s : Nat) : (opInternalKey op s).seq = s := by
  cases op <;> rfl

theorem opInternalKey_userKey (op : WriteOp) (s : Nat) :
    (opInternalKey op s).userKey = opKey op := by
  cases op <;> rfl

theorem applyFrom_append (m : MemTable) (s : Nat) (ops : List WriteOp) (op : WriteOp) :
    applyFrom m s (ops ++ [op]) =
      (applyFrom m s ops).insert (opInternalKey op (s + ops.length)) (opValue op) := by
  induction ops generalizing m s with
  | nil => simp [applyFrom]
  | cons o ops ih =>
    simp only [List.cons_append, applyFrom, List.length_cons, List.append_eq]
    rw [ih]
    have h : s + 1 + ops.length = s + (ops.length + 1) := by omega
    rw [h]

theorem applyFrom_seq_bounds {m : MemTable} {s : Nat} {ops : List WriteOp} :
    ∀ e ∈ applyFrom m s ops, e ∈ m ∨ (s ≤ e.key.seq ∧ e.key.seq < s + ops.length) := by
  induction ops generalizing m s with
  | nil => exact fun e he => Or.inl he
  | cons o ops ih =>
    intro e he
    simp only [applyFrom] at he
    rcases ih e he with hm | hb
    · rw [MemTable.insert] at hm
      rcases (List.mem_orderedInsert _).1 hm with rfl | hm
      · right
        rw [opInternalKey_seq]
        simp only [List.length_cons]
        omega
      · exact Or.inl hm
    · right
      simp only [List.length_cons]
      omega

theorem applyFrom_ordered {m : MemTable} (h : m.Ordered) (s : Nat)
    (ops : List WriteOp) : (applyFrom m s ops).Ordered := by
  induction ops generalizing m s with
  | nil => exact h
  | cons o ops ih =>
    simp only [applyFrom]
    exact ih (h.insert _ _) (s + 1)

theorem get_insert_newest {m : MemTable} (_hord : m.Ordered) {s : Nat}
    (hseq : ∀ e ∈ m, e.key.seq < s) (k : InternalKey) (hk : k.seq = s)
    (v : List Nat) {N : Nat} (hN : s ≤ N) :
    MemTable.get (m.insert k v) k.userKey N = entryResult ⟨k, v⟩ := by
  unfold MemTable.get
  rw [lsm_find?_filter, MemTable.insert, List.orderedInsert_eq_take_drop,
    List.filter_append]
  have htake :
      (m.takeWhile fun b => ¬ entryLE ⟨k, v⟩ b).filter (entryVisible k.userKey N)
        = [] := by
    rw [List.filter_eq_nil_iff]
    intro e he
    have hgt : ¬ entryLE ⟨k, v⟩ e := by
      have := List.mem_takeWhile_imp he
      simpa using this
    have hgt' : ikCompare k e.key = .gt := not_not.1 hgt
    intro hvis
    unfold entryVisible at hvis
    rw [Bool.and_eq_true] at hvis
    have huk : e.key.userKey = k.userKey := eq_of_beq hvis.1
    have hlt : ikCompare e.key k = .lt := by
      rw [ikCompare_swap, hgt']
      rfl
    have hle := ikLT_seq_le hlt huk
    have hmem : e ∈ m := (List.takeWhile_prefix _).sublist.subset he
    have := hseq e hmem
    omega
  have hvis : entryVisible k.userKey N (⟨k, v⟩ : Entry) = true := by
    unfold entryVisible
    simp [hk, hN]
  rw [htake, List.nil_append, List.filter_cons_of_pos hvis]
  rfl

theorem get_insert_other {m : MemTable} (k : InternalKey) (v : List Nat)
    {uk : UserKey} (hne : uk ≠ k.userKey) (N : Nat) :
    MemTable.get (m.insert k v) uk N = MemTable.get m uk N := by
  unfold MemTable.get
  rw [lsm_find?_filter, lsm_find?_filter, MemTable.insert,
    List.orderedInsert_eq_take_drop, List.filter_append]
  have hvis : ¬ entryVisible uk N (⟨k, v⟩ : Entry) = true := by
    unfold entryVisible
    simp only [Bool.and_eq_true, beq_iff_eq]
    rintro ⟨h, -⟩
    exact hne h.symm
  rw [List.filter_cons_of_neg hvis, ← List.filter_append,
    List.takeWhile_append_dropWhile]

theorem lastWrite_concat (ops : List WriteOp) (op : WriteOp) (k : UserKey) :
    lastWrite (ops ++ [op]) k =
      if opKey op == k then some op else lastWrite ops k := by
  unfold lastWrite
  rw [List.filter_append]
  by_cases h : (opKey op == k) = true
  · rw [if_pos h]
    have hf : List.filter (fun op => opKey op == k) [op] = [op] := by
      simp [List.filter, h]
    rw [hf, List.getLast?_concat]
  · rw [if_neg h]
    have hf : List.filter (fun op => opKey op == k) [op] = [] := by
      simp [List.filter, h]
    rw [hf, List.append_nil]

theorem session_get_aux (ops : List WriteOp) (k : UserKey) :
    ∀ N, ops.length ≤ N →
      dbGet (applySession ops) k N =
        (match lastWrite ops k with
         | some (.putOp _ v) => GetResult.value v
         | _ => GetResult.notFound) := by
  induction ops using List.reverseRecOn with
  | nil => intro N _; rfl
  | append_singleton ops op ih =>
    intro N hN
    rw [applySession, applyFrom_append]
    have hord : (applyFrom ([] : MemTable) 1 ops).Ordered :=
      applyFrom_ordered List.sorted_nil 1 ops
    have hseq : ∀ e ∈ applyFrom ([] : MemTable) 1 ops,
        e.key.seq < 1 + ops.length := by
      intro e he
      rcases applyFrom_seq_bounds e he with h | h
      · cases h
      · omega
    rw [List.length_append, List.length_cons, List.length_nil] at hN
    by_cases hk : opKey op = k
    · have huk : (opInternalKey op (1 + ops.length)).userKey = k := by
        rw [opInternalKey_userKey, hk]
      unfold dbGet
      rw [← huk,
        get_insert_newest hord hseq _ (opInternalKey_seq op _) _ (by omega)]
      rw [lastWrite_concat, if_pos (by simp [hk, huk])]
      cases op <;> rfl
    · have huk : k ≠ (opInternalKey op (1 + ops.length)).userKey := by
        rw [opInternalKey_userKey]
        exact fun h => hk h.symm
      unfold dbGet
      rw [get_insert_other _ _ huk]
      rw [lastWrite_concat, if_neg (by simp [hk])]
      have := ih N (by omega)
      unfold dbGet applySession at this
      exact this

/-- C1: within one session, `get(k)` with no snapshot returns the value
of the most recent put for `k`, or `not_found` when the most recent
operation on `k` was a delete (or no operation touched `k`); at the
MemTable level, `get(user_key, max_sequence)` answers from exactly the
newest entry for `user_key` with sequence number at most `max_sequence`,
and `not_found` exactly when no such entry exists. -/
theorem memtable_get_most_recent (ops : List WriteOp) (k : UserKey)
    (N : Nat) (hN : ops.length ≤ N) (m : MemTable) (uk : UserKey)
    (maxSeq : Nat) (hs : m.Ordered) :
    (dbGet (applySession ops) k N =
      (match lastWrite ops k with
       | some (.putOp _ v) => GetResult.value v
       | _ => GetResult.notFound)) ∧
    (MemTable.get m uk maxSeq = .notFound ↔
      m.filter (entryVisible uk maxSeq) = []) ∧
    (∀ e, (m.filter (entryVisible uk maxSeq)).head? = some e →
      MemTable.get m uk maxSeq = entryResult e ∧
      ∀ e' ∈ m.filter (entryVisible uk maxSeq), e'.key.seq ≤ e.key.seq) := by
  refine ⟨session_get_aux ops k N hN, ?_, ?_⟩
  · unfold MemTable.get
    rw [lsm_find?_filter]
    cases hf : (m.filter (entryVisible uk maxSeq)).head? with
    | none =>
      simp only [hf]
      rw [List.head?_eq_none_iff] at hf
      simp [hf]
    | some e =>
      simp only [hf]
      constructor
      · intro h
        unfold entryResult at h
        split at h <;> cases h
      · intro h
        rw [h] at hf
        cases hf
  · intro e hf
    constructor
    · unfold MemTable.get
      rw [lsm_find?_filter, hf]
    · intro e' he'
      have hsorted : List.Sorted entryLE (m.filter (entryVisible uk maxSeq)) :=
        List.Sorted.filter _ hs
      obtain ⟨rest, hrest⟩ : ∃ rest, m.filter (entryVisible uk maxSeq) = e :: rest := by
        cases hm : m.filter (entryVisible uk maxSeq) with
        | nil => rw [hm] at hf; cases hf
        | cons x xs =>
          rw [hm] at hf
          cases hf
          exact ⟨xs, rfl⟩
      rw [hrest] at he' hsorted
      have hkey : ∀ x ∈ m.filter (entryVisible uk maxSeq), x.key.userKey = uk := by
        intro x hx
        have hx' := List.of_mem_filter hx
        unfold entryVisible at hx'
        rw [Bool.and_eq_true] at hx'
        exact eq_of_beq hx'.1
      rcases List.mem_cons.1 he' with rfl | he'
      · exact le_refl _
      · have hle : entryLE e e' := List.rel_of_sorted_cons hsorted e' he'
        have huk : e.key.userKey = e'.key.userKey := by
          rw [hkey e (by rw [hrest]; exact List.mem_cons_self _ _),
            hkey e' (by rw [hrest]; exact List.mem_cons.2 (Or.inr he'))]
        exact ikLE_same_uk_seq hle huk

/-- Witness for C1: a put, a delete and a newer put on key `[1]` — the
read returns the last put's value; the memtable clauses hold on the
empty memtable. -/
theorem memtable_get_most_recent_witness :
    dbGet (applySession [.putOp [1] [9], .delOp [1], .putOp [1] [7]]) [1] 3 =
      GetResult.value [7] := by
  have h := memtable_get_most_recent
    [.putOp [1] [9], .delOp [1], .putOp [1] [7]] [1] 3 (by decide)
    [] [1] 0 List.sorted_nil
  exact h.1.trans (by decide)

/-- Modelled from the spec: a write batch, a sequence of operations
applied atomically (spec §6); `db/write_batch.cc` is not under `src/`. -/
structure Batch where
  ops : List WriteOp
deriving DecidableEq

/-- Modelled from the spec: a WAL record holds one group's concatenated
batches tagged with its sequence-number range (spec §6). -/
structure WalRecord where
  firstSeq : Nat
  ops : List WriteOp
deriving DecidableEq

/-- Modelled from the spec: the engine state seen by the write path —
active memtable, last allocated sequence number, WAL contents, and the
read-only-until-recovery flag (spec §4.1, §7). -/
structure Engine where
  mem : MemTable
  lastSeq : Nat
  wal : List WalRecord
  readOnly : Bool

/-- The engine state at open: empty memtable and WAL, sequence 0. -/
def initialEngine : Engine := ⟨[], 0, [], false⟩

/-- Outcome of the WAL append/fsync performed by a write
(the filesystem is an injected capability, spec §1). -/
inductive WalResult where
  | ok
  | ioError
deriving DecidableEq

/-- The first sequence number of each batch when a group is assigned a
contiguous block starting at `s` (spec §4.1). -/
def batchStarts (s : Nat) : List Batch → List Nat
  | [] => []
  | b :: bs => s :: batchStarts (s + b.ops.length) bs

/-- All sequence numbers assigned to a group, batch by batch. -/
def assignedSeqs (s : Nat) : List Batch → List Nat
  | [] => []
  | b :: bs => List.range' s b.ops.length ++ assignedSeqs (s + b.ops.length) bs

/-- The entries a run of operations committed at consecutive sequence
numbers starting at `s` contributes to the memtable. -/
def batchEntries (s : Nat) : List WriteOp → List Entry
  | [] => []
  | op :: ops => ⟨opInternalKey op s, opValue op⟩ :: batchEntries (s + 1) ops

/-- Modelled from the spec: one group-commit round (spec §4.1).  The
leader collects the group's batches, assigns them the contiguous block
of sequence numbers after `lastSeq`, writes one concatenated WAL record
and, only when the WAL write succeeded, applies all operations to the
active memtable in sequence order; a WAL append/fsync failure fails the
round, leaves the memtable unchanged and marks the engine
read-only-until-recovery, which rejects later writes (spec §4.1, §7). -/
def groupCommit (e : Engine) (batches : List Batch) (walRes : WalResult) :
    Engine × Except Unit (List Nat) :=
  if e.readOnly then (e, .error ())
  else
    let ops := (batches.map Batch.ops).flatten
    match walRes with
    | .ioError => ({ e with readOnly := true }, .error ())
    | .ok =>
      ({ e with
          mem := applyFrom e.mem (e.lastSeq + 1) ops
          lastSeq := e.lastSeq + ops.length
          wal := e.wal ++ [⟨e.lastSeq + 1, ops⟩] },
       .ok (batchStarts (e.lastSeq + 1) batches))

/-- Modelled from the spec: `write(batch, sync_wal) -> sequence_number |
Error` (spec §4.1), a group of one batch; returns the batch's first
assigned sequence number. -/
def write (e : Engine) (b : Batch) (_syncWal : Bool) (walRes : WalResult) :
    Engine × Except Unit Nat :=
  match groupCommit e [b] walRes with
  | (e', .ok _) => (e', .ok (e.lastSeq + 1))
  | (e', .error ()) => (e', .error ())

/-- A sequence of group-commit rounds, each with its batches and WAL
outcome. -/
def runRounds (e : Engine) : List (List Batch × WalResult) → Engine
  | [] => e
  | (bs, w) :: rest => runRounds (groupCommit e bs w).1 rest

/-- The sequence numbers committed to the WAL. -/
def walSeqs (wal : List WalRecord) : List Nat :=
  (wal.map fun r => List.range' r.firstSeq r.ops.length).flatten

theorem assignedSeqs_eq_range' (s : Nat) (bs : List Batch) :
    assignedSeqs s bs = List.range' s ((bs.map Batch.ops).flatten.length) := by
  induction bs generalizing s with
  | nil => rfl
  | cons b bs ih =>
    simp only [assignedSeqs, List.map_cons, List.flatten_cons, List.length_append]
    rw [ih, List.range'_append_1,
      Nat.add_comm ((bs.map Batch.ops).flatten.length) b.ops.length]

theorem batchEntries_seq_lb (s : Nat) (ops : List WriteOp) :
    ∀ e ∈ batchEntries s ops, s ≤ e.key.seq := by
  induction ops generalizing s with
  | nil => intro e he; cases he
  | cons op ops ih =>
    intro e he
    rcases List.mem_cons.1 he with rfl | he
    · rw [opInternalKey_seq]
    · exact le_trans (by omega) (ih (s + 1) e he)

theorem batchEntries_seq_sorted (s : Nat) (ops : List WriteOp) :
    (batchEntries s ops).Pairwise (fun a b => a.key.seq < b.key.seq) := by
  induction ops generalizing s with
  | nil => exact List.Pairwise.nil
  | cons op ops ih =>
    refine List.Pairwise.cons ?_ (ih (s + 1))
    intro e he
    have := batchEntries_seq_lb (s + 1) ops e he
    rw [opInternalKey_seq]
    omega

theorem applyFrom_perm (m : MemTable) (s : Nat) (ops : List WriteOp) :
    List.Perm (applyFrom m s ops) (m ++ batchEntries s ops) := by
  induction ops generalizing m s with
  | nil => simp [applyFrom, batchEntries]
  | cons op ops ih =>
    simp only [applyFrom, batchEntries]
    refine (ih _ (s + 1)).trans ?_
    refine ((List.perm_orderedInsert _ _ _).append_right _).trans ?_
    exact List.perm_middle.symm

theorem walSeqs_groupCommit (e : Engine) (bs : List Batch) (w : WalResult)
    (h : walSeqs e.wal = List.range' 1 e.lastSeq) :
    walSeqs (groupCommit e bs w).1.wal =
      List.range' 1 (groupCommit e bs w).1.lastSeq := by
  unfold groupCommit
  by_cases hro : e.readOnly = true
  · simpa [hro] using h
  · rw [Bool.not_eq_true] at hro
    cases w
    · simp only [hro, Bool.false_eq_true, if_false]
      unfold walSeqs at h ⊢
      simp only [List.map_append, List.map_cons, List.map_nil,
        List.flatten_append, List.flatten_cons, List.flatten_nil,
        List.append_nil, h]
      rw [show e.lastSeq + 1 = 1 + e.lastSeq from Nat.add_comm _ _,
        List.range'_append_1]
      congr 1
      omega
    · simpa [hro] using h

theorem runRounds_seq_consistent (rounds : List (List Batch × WalResult)) :
    walSeqs (runRounds initialEngine rounds).wal =
      List.range' 1 (runRounds initialEngine rounds).lastSeq := by
  suffices h : ∀ e, walSeqs e.wal = List.range' 1 e.lastSeq →
      walSeqs (runRounds e rounds).wal =
        List.range' 1 (runRounds e rounds).lastSeq by
    exact h initialEngine rfl
  induction rounds with
  | nil => exact fun e he => he
  | cons r rest ih =>
    intro e he
    cases r with
    | mk bs w => exact ih _ (walSeqs_groupCommit e bs w he)

/-- C3: a group-commit round assigns its batches one contiguous,
strictly increasing block of sequence numbers starting right after the
engine's last sequence; over any execution the committed sequence
numbers are exactly `1..lastSeq` — never reused, never skipped; and the
batches reach the active memtable, in sequence order, only when the WAL
write succeeded (a failed round leaves the memtable untouched). -/
theorem write_path_sequence_spec (e : Engine) (batches : List Batch)
    (rounds : List (List Batch × WalResult)) (h : e.readOnly = false) :
    (assignedSeqs (e.lastSeq + 1) batches =
      List.range' (e.lastSeq + 1) ((batches.map Batch.ops).flatten.length)) ∧
    (assignedSeqs (e.lastSeq + 1) batches).Pairwise (· < ·) ∧
    (walSeqs (runRounds initialEngine rounds).wal =
      List.range' 1 (runRounds initialEngine rounds).lastSeq) ∧
    ((groupCommit e batches .ioError).1.mem = e.mem) ∧
    (List.Perm (groupCommit e batches .ok).1.mem
      (e.mem ++ batchEntries (e.lastSeq + 1) ((batches.map Batch.ops).flatten))) ∧
    ((batchEntries (e.lastSeq + 1) ((batches.map Batch.ops).flatten)).Pairwise
      (fun a b => a.key.seq < b.key.seq)) := by
  refine ⟨assignedSeqs_eq_range' _ _, ?_, runRounds_seq_consistent rounds,
    ?_, ?_, batchEntries_seq_sorted _ _⟩
  · rw [assignedSeqs_eq_range']
    exact List.pairwise_lt_range' _ _
  · simp [groupCommit, h]
  · simp only [groupCommit, h, Bool.false_eq_true, if_false]
    exact applyFrom_perm _ _ _

/-- Witness for C3: one round of two batches on the fresh engine. -/
theorem write_path_sequence_spec_witness :
    assignedSeqs 1 [⟨[.putOp [1] [5]]⟩, ⟨[.putOp [2] [6], .delOp [1]]⟩]
      = [1, 2, 3] := by
  have h := write_path_sequence_spec initialEngine
    [⟨[.putOp [1] [5]]⟩, ⟨[.putOp [2] [6], .delOp [1]]⟩] [] rfl
  exact h.1.trans (by decide)

/-- C4: a `write(batch, sync_wal)` whose WAL append/fsync fails returns
an error, leaves the memtable exactly as it was (no partial
application), and moves the engine to the read-only-until-recovery state
in which every subsequent write is rejected with an error and changes
nothing. -/
theorem write_wal_failure_spec (e : Engine) (b : Batch) (sync : Bool)
    (h : e.readOnly = false) :
    (write e b sync .ioError).2 = .error () ∧
    (write e b sync .ioError).1.mem = e.mem ∧
    (write e b sync .ioError).1.readOnly = true ∧
    (∀ (b' : Batch) (sync' : Bool) (w' : WalResult),
      (write (write e b sync .ioError).1 b' sync' w').2 = .error () ∧
      (write (write e b sync .ioError).1 b' sync' w').1 =
        (write e b sync .ioError).1) := by
  refine ⟨?_, ?_, ?_, ?_⟩
  · simp [write, groupCommit, h]
  · simp [write, groupCommit, h]
  · simp [write, groupCommit, h]
  · intro b' sync' w'
    constructor
    · simp [write, groupCommit, h]
    · simp [write, groupCommit, h]

/-- Witness for C4: a failed write on the fresh engine. -/
theorem write_wal_failure_spec_witness :
    (write initialEngine ⟨[.putOp [1] [5]]⟩ true .ioError).2 = .error () ∧
    (write initialEngine ⟨[.putOp [1] [5]]⟩ true .ioError).1.mem = [] := by
  have h := write_wal_failure_spec initialEngine ⟨[.putOp [1] [5]]⟩ true rfl
  exact ⟨h.1, h.2.1⟩

/-- Whether a value type is a point-deletion marker. -/
def isDeletion : ValueType → Bool
  | .delete => true
  | .singleDelete => true
  | _ => false

/-- Modelled from the spec: is the older version at sequence `oseq`
still needed, given that the next newer surviving version of the same
key has sequence `prevSeq`?  A snapshot at `S` observes the newest entry
with sequence ≤ S, so the older version is its observation exactly when
`oseq ≤ S < prevSeq` (spec §3 Snapshot, §4.4). -/
def neededBySnapshot (snaps : List Nat) (prevSeq oseq : Nat) : Bool :=
  snaps.any fun S => decide (oseq ≤ S) && decide (S < prevSeq)

/-- Modelled from the spec: walk the older versions of one user key
(newest first, `prevSeq` the sequence of the last kept newer version)
and keep exactly the versions some live snapshot still observes
(spec §4.4, retained conservatively per §9). -/
def keepOlds (snaps : List Nat) (prevSeq : Nat) : List Entry → List Entry
  | [] => []
  | o :: rest =>
    if neededBySnapshot snaps prevSeq o.key.seq then
      o :: keepOlds snaps o.key.seq rest
    else
      keepOlds snaps prevSeq rest

/-- Modelled from the spec: what compaction emits for one user key's run
(newest entry first).  If the run involves a Merge the whole run is
preserved (its older entries may be needed as operands, spec §4.4);
otherwise the newest entry is kept, older entries only while a snapshot
observes them, and a point tombstone is dropped when compacting into the
bottom level once no pre-delete version survives (spec §4.4). -/
def compactRun (snaps : List Nat) (bottom : Bool) (e : Entry)
    (run : List Entry) : List Entry :=
  if (e :: run).any (fun x => x.key.vtype == ValueType.merge) then
    e :: run
  else
    let olds := keepOlds snaps e.key.seq run
    if isDeletion e.key.vtype && bottom && olds.isEmpty then [] else e :: olds

/-- Modelled from the spec: the compaction walk over the merged input
(spec §4.4): process the input run of each user key in turn. -/
def compact (snaps : List Nat) (bottom : Bool) : List Entry → List Entry
  | [] => []
  | e :: rest =>
    compactRun snaps bottom e
        (rest.takeWhile fun x => x.key.userKey == e.key.userKey)
      ++ compact snaps bottom
        (rest.dropWhile fun x => x.key.userKey == e.key.userKey)
termination_by l => l.length
decreasing_by
  exact Nat.lt_succ_of_le (List.Sublist.length_le (List.dropWhile_sublist _))

/-- Modelled from the spec: the merging iterator across two sorted runs,
ordered by internal key (spec §4.4). -/
def mergeRuns : List Entry → List Entry → List Entry
  | [], l2 => l2
  | l1, [] => l1
  | a :: l1, b :: l2 =>
    match ikCompare a.key b.key with
    | .gt => b :: mergeRuns (a :: l1) l2
    | _ => a :: mergeRuns l1 (b :: l2)
termination_by l1 l2 => l1.length + l2.length
decreasing_by
  · simp only [List.length_cons]; omega
  · simp only [List.length_cons]; omega

/-- Modelled from the spec: compaction output split into files of
bounded size (spec §4.4), here chunks of `sz + 1` entries. -/
def splitSST (sz : Nat) : List Entry → List (List Entry)
  | [] => []
  | e :: rest => (e :: rest.take sz) :: splitSST sz (rest.drop sz)
termination_by l => l.length
decreasing_by
  simp only [List.length_cons, List.length_drop]
  omega

theorem keepOlds_nil_iff (snaps : List Nat) (prevSeq : Nat)
    (run : List Entry) :
    keepOlds snaps prevSeq run = [] ↔
      ∀ o ∈ run, neededBySnapshot snaps prevSeq o.key.seq = false := by
  induction run generalizing prevSeq with
  | nil => simp [keepOlds]
  | cons o rest ih =>
    by_cases h : neededBySnapshot snaps prevSeq o.key.seq = true
    · simp [keepOlds, h]
    · rw [Bool.not_eq_true] at h
      simp only [keepOlds, h, Bool.false_eq_true, if_false, List.mem_cons]
      rw [ih]
      constructor
      · intro hall o' ho'
        rcases ho' with rfl | ho'
        · exact h
        · exact hall o' ho'
      · intro hall o' ho'
        exact hall o' (Or.inr ho')

theorem keepOlds_sublist (snaps : List Nat) (prevSeq : Nat)
    (run : List Entry) : (keepOlds snaps prevSeq run).Sublist run := by
  induction run generalizing prevSeq with
  | nil => exact List.Sublist.refl _
  | cons o rest ih =>
    by_cases h : neededBySnapshot snaps prevSeq o.key.seq = true
    · simp only [keepOlds, h, if_true]
      exact (ih o.key.seq).cons₂ o
    · rw [Bool.not_eq_true] at h
      simp only [keepOlds, h, Bool.false_eq_true, if_false]
      exact (ih prevSeq).cons o

theorem compactRun_sublist (snaps : List Nat) (bottom : Bool) (e : Entry)
    (run : List Entry) : (compactRun snaps bottom e run).Sublist (e :: run) := by
  unfold compactRun
  by_cases hm : ((e :: run).any fun x => x.key.vtype == ValueType.merge) = true
  · simp only [hm, if_true]
    exact List.Sublist.refl _
  · rw [Bool.not_eq_true] at hm
    simp only [hm, Bool.false_eq_true, if_false]
    by_cases hd : (isDeletion e.key.vtype && bottom
        && (keepOlds snaps e.key.seq run).isEmpty) = true
    · simp only [hd, if_true]
      exact List.nil_sublist _
    · rw [Bool.not_eq_true] at hd
      simp only [hd, Bool.false_eq_true, if_false]
      exact (keepOlds_sublist snaps e.key.seq run).cons₂ e

theorem compact_sublist (snaps : List Nat) (bottom : Bool) :
    ∀ (n : Nat) (l : List Entry), l.length ≤ n →
      (compact snaps bottom l).Sublist l := by
  intro n
  induction n with
  | zero =>
    intro l hl
    rw [List.length_eq_zero.1 (Nat.le_zero.1 hl)]
    simp only [compact]
    exact List.Sublist.refl _
  | succ n ih =>
    intro l hl
    cases l with
    | nil =>
      simp only [compact]
      exact List.Sublist.refl _
    | cons e rest =>
      simp only [compact]
      have hsplit : rest =
          (rest.takeWhile fun x => x.key.userKey == e.key.userKey)
            ++ rest.dropWhile fun x => x.key.userKey == e.key.userKey :=
        (List.takeWhile_append_dropWhile _ _).symm
      have h1 := compactRun_sublist snaps bottom e
        (rest.takeWhile fun x => x.key.userKey == e.key.userKey)
      have hdw : (rest.dropWhile fun x : Entry =>
            x.key.userKey == e.key.userKey).length ≤ rest.length :=
        List.Sublist.length_le (List.dropWhile_sublist _)
      simp only [List.length_cons] at hl
      have h2 := ih (rest.dropWhile fun x => x.key.userKey == e.key.userKey)
        (by omega)
      have hfinal := List.Sublist.append h1 h2
      rw [List.cons_append, ← hsplit] at hfinal
      exact hfinal

theorem dbGet_congr_find? {l1 l2 : List Entry} (uk : UserKey) (S : Nat)
    (h : l1.find? (entryVisible uk S) = l2.find? (entryVisible uk S)) :
    dbGet l1 uk S = dbGet l2 uk S := by
  unfold dbGet MemTable.get
  rw [h]

theorem keepOlds_find?_visible (snaps : List Nat) (uk : UserKey) (S : Nat)
    (hS : S ∈ snaps) :
    ∀ (run : List Entry) (prevSeq : Nat), S < prevSeq →
      (∀ x ∈ run, x.key.userKey = uk) →
      (keepOlds snaps prevSeq run).find? (entryVisible uk S) =
        run.find? (entryVisible uk S) := by
  intro run
  induction run with
  | nil => intro prev _ _; rfl
  | cons o rest ih =>
    intro prev hSp huk
    by_cases hvis : o.key.seq ≤ S
    · have hneed : neededBySnapshot snaps prev o.key.seq = true := by
        unfold neededBySnapshot
        rw [List.any_eq_true]
        exact ⟨S, hS, by simp [hvis, hSp]⟩
      have hv : entryVisible uk S o = true := by
        unfold entryVisible
        simp [huk o (List.mem_cons_self o rest), hvis]
      simp only [keepOlds, hneed, if_true]
      rw [List.find?_cons_of_pos _ hv, List.find?_cons_of_pos _ hv]
    · have hv : ¬ entryVisible uk S o = true := by
        unfold entryVisible
        simp [hvis]
      by_cases hneed : neededBySnapshot snaps prev o.key.seq = true
      · simp only [keepOlds, hneed, if_true]
        rw [List.find?_cons_of_neg _ hv, List.find?_cons_of_neg _ hv]
        exact ih o.key.seq (by omega)
          (fun x hx => huk x (List.mem_cons_of_mem _ hx))
      · rw [Bool.not_eq_true] at hneed
        simp only [keepOlds, hneed, Bool.false_eq_true, if_false]
        rw [List.find?_cons_of_neg _ hv]
        exact ih prev hSp (fun x hx => huk x (List.mem_cons_of_mem _ hx))

theorem compactRun_get (snaps : List Nat) (bottom : Bool) (e : Entry)
    (run : List Entry) (S : Nat) (hS : S ∈ snaps)
    (huk : ∀ x ∈ run, x.key.userKey = e.key.userKey) :
    dbGet (compactRun snaps bottom e run) e.key.userKey S =
      dbGet (e :: run) e.key.userKey S := by
  unfold compactRun
  by_cases hm : ((e :: run).any fun x => x.key.vtype == ValueType.merge) = true
  · simp only [hm, if_true]
  · rw [Bool.not_eq_true] at hm
    simp only [hm, Bool.false_eq_true, if_false]
    by_cases hvis : e.key.seq ≤ S
    · have hv : entryVisible e.key.userKey S e = true := by
        unfold entryVisible
        simp [hvis]
      by_cases hd : (isDeletion e.key.vtype && bottom
          && (keepOlds snaps e.key.seq run).isEmpty) = true
      · simp only [hd, if_true]
        have hdel : isDeletion e.key.vtype = true := by
          have h := hd
          rw [Bool.and_eq_true, Bool.and_eq_true] at h
          exact h.1.1
        unfold dbGet MemTable.get
        rw [List.find?_cons_of_pos _ hv]
        simp only [List.find?_nil]
        cases hk : e.key.vtype <;>
          simp [isDeletion, hk, entryResult] at hdel ⊢
      · rw [Bool.not_eq_true] at hd
        simp only [hd, Bool.false_eq_true, if_false]
        apply dbGet_congr_find?
        rw [List.find?_cons_of_pos _ hv, List.find?_cons_of_pos _ hv]
    · have hv : ¬ entryVisible e.key.userKey S e = true := by
        unfold entryVisible
        simp [hvis]
      have hrun := keepOlds_find?_visible snaps e.key.userKey S hS run
        e.key.seq (by omega) huk
      by_cases hd : (isDeletion e.key.vtype && bottom
          && (keepOlds snaps e.key.seq run).isEmpty) = true
      · simp only [hd, if_true]
        have hempty : keepOlds snaps e.key.seq run = [] := by
          have h := hd
          rw [Bool.and_eq_true] at h
          exact List.isEmpty_iff.1 h.2
        apply dbGet_congr_find?
        rw [List.find?_cons_of_neg _ hv, ← hrun, hempty]
      · rw [Bool.not_eq_true] at hd
        simp only [hd, Bool.false_eq_true, if_false]
        apply dbGet_congr_find?
        rw [List.find?_cons_of_neg _ hv, List.find?_cons_of_neg _ hv, hrun]

theorem cbLE_of_entryLE {a b : Entry} (h : entryLE a b) :
    compareBytes a.key.userKey b.key.userKey ≠ .gt := by
  intro hgt
  apply h
  unfold ikCompare
  rw [hgt]
  rfl

theorem cbLT_trans_ne {x y z : UserKey} (h1 : compareBytes x y = .lt)
    (h2 : compareBytes y z ≠ .gt) : compareBytes x z = .lt := by
  cases hyz : compareBytes y z with
  | gt => exact absurd hyz h2
  | lt => exact compareBytes_trans h1 hyz
  | eq =>
    rw [(compareBytes_eq_iff _ _).1 hyz] at h1
    exact h1

theorem dropWhile_key_ne (e : Entry) :
    ∀ (rest : List Entry), rest.Pairwise entryLE →
      (∀ y ∈ rest, entryLE e y) →
      ∀ x ∈ rest.dropWhile (fun x => x.key.userKey == e.key.userKey),
        x.key.userKey ≠ e.key.userKey := by
  intro rest
  induction rest with
  | nil => intro _ _ x hx; cases hx
  | cons y ys ih =>
    intro hp hle x hx
    by_cases hy : (y.key.userKey == e.key.userKey) = true
    · have hstep : (y :: ys).dropWhile (fun x => x.key.userKey == e.key.userKey)
          = ys.dropWhile (fun x => x.key.userKey == e.key.userKey) := by
        simp [List.dropWhile_cons, hy]
      rw [hstep] at hx
      exact ih (List.Pairwise.sublist (List.sublist_cons_self y ys) hp)
        (fun z hz => hle z (List.mem_cons_of_mem _ hz)) x hx
    · have hstep : (y :: ys).dropWhile (fun x => x.key.userKey == e.key.userKey)
          = y :: ys := by
        simp [List.dropWhile_cons, hy]
      rw [hstep] at hx
      have hyne : y.key.userKey ≠ e.key.userKey := by
        intro hEq
        exact hy (beq_iff_eq.2 hEq)
      have hylt : compareBytes e.key.userKey y.key.userKey = .lt := by
        have hle' := cbLE_of_entryLE (hle y (List.mem_cons_self y ys))
        cases hc : compareBytes e.key.userKey y.key.userKey with
        | lt => rfl
        | gt => exact absurd hc hle'
        | eq => exact absurd ((compareBytes_eq_iff _ _).1 hc).symm hyne
      rcases List.mem_cons.1 hx with rfl | hx
      · exact hyne
      · have hxy : entryLE y x :=
          List.rel_of_pairwise_cons hp hx
        have hlt := cbLT_trans_ne hylt (cbLE_of_entryLE hxy)
        intro hEq
        rw [hEq] at hlt
        rw [(compareBytes_eq_iff _ _).2 rfl] at hlt
        cases hlt

/-- C2: a read through a snapshot at sequence `S` only ever observes
entries with sequence at most `S`; writes later than the snapshot (all
with sequence above `S`) do not change what it reads; and compaction
with `S` among the live snapshots preserves the result of every read
through that snapshot. -/
theorem snapshot_visibility_spec (l newer : List Entry) (snaps : List Nat)
    (bottom : Bool) (S : Nat) (uk : UserKey) (hs : l.Pairwise entryLE)
    (hS : S ∈ snaps) (hnew : ∀ e ∈ newer, S < e.key.seq) :
    (∀ e, l.find? (entryVisible uk S) = some e → e.key.seq ≤ S) ∧
    (dbGet (newer ++ l) uk S = dbGet l uk S) ∧
    (dbGet (compact snaps bottom l) uk S = dbGet l uk S) := by
  refine ⟨?_, ?_, ?_⟩
  · intro e he
    have := List.find?_some he
    unfold entryVisible at this
    rw [Bool.and_eq_true] at this
    exact of_decide_eq_true this.2
  · apply dbGet_congr_find?
    rw [List.find?_append]
    have hnone : newer.find? (entryVisible uk S) = none := by
      rw [List.find?_eq_none]
      intro x hx
      unfold entryVisible
      have := hnew x hx
      simp [Nat.not_le.2 this]
    rw [hnone, Option.none_or]
  · clear hnew
    have main : ∀ (n : Nat) (l : List Entry), l.length ≤ n →
        l.Pairwise entryLE →
        dbGet (compact snaps bottom l) uk S = dbGet l uk S := by
      intro n
      induction n with
      | zero =>
        intro l hl _
        rw [List.length_eq_zero.1 (Nat.le_zero.1 hl)]
        simp only [compact]
      | succ n ih =>
        intro l hl hp
        cases l with
        | nil => simp only [compact]
        | cons e rest =>
          simp only [compact]
          set tw := rest.takeWhile (fun x => x.key.userKey == e.key.userKey)
            with htw
          set dw := rest.dropWhile (fun x => x.key.userKey == e.key.userKey)
            with hdw
          have htwuk : ∀ x ∈ tw, x.key.userKey = e.key.userKey := by
            intro x hx
            have := List.mem_takeWhile_imp hx
            exact eq_of_beq this
          have hdwuk : ∀ x ∈ dw, x.key.userKey ≠ e.key.userKey :=
            dropWhile_key_ne e rest (List.Pairwise.sublist
                (List.sublist_cons_self e rest) hp)
              (fun y hy => List.rel_of_pairwise_cons hp hy)
          have hdwlen : dw.length ≤ n := by
            have h1 : dw.length ≤ rest.length :=
              List.Sublist.length_le (List.dropWhile_sublist _)
            simp only [List.length_cons] at hl
            omega
          have hdwp : dw.Pairwise entryLE :=
            List.Pairwise.sublist
              ((List.dropWhile_sublist _).trans (List.sublist_cons_self e rest))
              hp
          have ihdw := ih dw hdwlen hdwp
          have hrest : rest = tw ++ dw :=
            (List.takeWhile_append_dropWhile _ _).symm
          by_cases hcase : uk = e.key.userKey
          · have hdwnone : dw.find? (entryVisible uk S) = none := by
              rw [List.find?_eq_none]
              intro x hx
              unfold entryVisible
              rw [Bool.and_eq_true]
              rintro ⟨h1, -⟩
              exact hdwuk x hx ((eq_of_beq h1).trans hcase)
            have hcdwnone :
                (compact snaps bottom dw).find? (entryVisible uk S) = none := by
              rw [List.find?_eq_none]
              intro x hx
              have hmem := (compact_sublist snaps bottom dw.length dw
                (le_refl _)).subset hx
              unfold entryVisible
              rw [Bool.and_eq_true]
              rintro ⟨h1, -⟩
              exact hdwuk x hmem ((eq_of_beq h1).trans hcase)
            have lhs1 : dbGet (compactRun snaps bottom e tw
                ++ compact snaps bottom dw) uk S =
                dbGet (compactRun snaps bottom e tw) uk S := by
              apply dbGet_congr_find?
              rw [List.find?_append, hcdwnone, Option.or_none]
            have rhs1 : dbGet (e :: (tw ++ dw)) uk S =
                dbGet (e :: tw) uk S := by
              apply dbGet_congr_find?
              rw [show e :: (tw ++ dw) = (e :: tw) ++ dw from rfl,
                List.find?_append, hdwnone, Option.or_none]
            rw [← hrest] at rhs1
            rw [lhs1, rhs1, hcase]
            exact compactRun_get snaps bottom e tw S hS htwuk
          · have htwnone :
                ∀ x ∈ e :: tw, ¬ entryVisible uk S x = true := by
              intro x hx
              rcases List.mem_cons.1 hx with rfl | hx
              · unfold entryVisible
                rw [Bool.and_eq_true]
                rintro ⟨h1, -⟩
                exact hcase (eq_of_beq h1).symm
              · unfold entryVisible
                rw [Bool.and_eq_true]
                rintro ⟨h1, -⟩
                exact hcase ((eq_of_beq h1).symm.trans (htwuk x hx))
            have hcrnone :
                (compactRun snaps bottom e tw).find? (entryVisible uk S)
                  = none := by
              rw [List.find?_eq_none]
              intro x hx
              exact htwnone x ((compactRun_sublist snaps bottom e tw).subset hx)
            have lhs1 : dbGet (compactRun snaps bottom e tw
                ++ compact snaps bottom dw) uk S =
                dbGet (compact snaps bottom dw) uk S := by
              apply dbGet_congr_find?
              rw [List.find?_append, hcrnone, Option.none_or]
            have rhs1 : dbGet (e :: rest) uk S = dbGet dw uk S := by
              apply dbGet_congr_find?
              rw [hrest, show e :: (tw ++ dw) = (e :: tw) ++ dw from rfl,
                List.find?_append]
              rw [(List.find?_eq_none).2 htwnone, Option.none_or]
            rw [lhs1, rhs1, ihdw]
    exact main l.length l (le_refl _) hs

/-- Witness for C2 at a concrete state: key `[1]` was overwritten after
the snapshot at `S = 1`; the snapshot still reads the old value, also
after appending the newer write and after compacting. -/
theorem snapshot_visibility_spec_witness :
    dbGet (compact [1] false
        [⟨⟨[1], 2, .put⟩, [9]⟩, ⟨⟨[1], 1, .put⟩, [5]⟩]) [1] 1 =
      dbGet [⟨⟨[1], 2, .put⟩, [9]⟩, ⟨⟨[1], 1, .put⟩, [5]⟩] [1] 1 := by
  have h := snapshot_visibility_spec
    [⟨⟨[1], 2, .put⟩, [9]⟩, ⟨⟨[1], 1, .put⟩, [5]⟩]
    [⟨⟨[2], 3, .put⟩, [7]⟩] [1] false 1 [1]
    (by
      constructor
      · intro b hb
        rcases List.mem_singleton.1 hb with rfl
        unfold entryLE ikCompare
        decide
      · exact List.pairwise_singleton _ _)
    (List.mem_singleton.2 rfl)
    (by
      intro e he
      rcases List.mem_singleton.1 he with rfl
      decide)
  exact h.2.2

/-- Modelled from the spec: a flush writes the immutable memtable's
entries to a new SST in key order (spec §4.3); in this model the
memtable already is that ordered entry list, which becomes the file's
contents. -/
def flush (m : MemTable) : List Entry := m

theorem cbSingleton_lt {i j : Nat} (h : i < j) :
    compareBytes [i] [j] = .lt := by
  simp [compareBytes, Nat.compare_eq_lt.2 h]

theorem cbSingleton_eq (i : Nat) : compareBytes [i] [i] = .eq := by
  simp [compareBytes, Nat.compare_eq_eq.2 rfl]

theorem ikLT_of_cbLT {a b : InternalKey}
    (h : compareBytes a.userKey b.userKey = .lt) : ikCompare a b = .lt := by
  unfold ikCompare
  rw [h]
  rfl

theorem ikGT_same_uk_newer {i s1 s2 : Nat} {t1 t2 : ValueType}
    (h : s1 < s2) :
    ikCompare ⟨[i], s1, t1⟩ ⟨[i], s2, t2⟩ = .gt := by
  unfold ikCompare
  simp only [cbSingleton_eq]
  rw [Nat.compare_eq_gt.2 h]
  rfl

theorem orderedInsert_append_of_gt (m : List Entry) (a : Entry)
    (h : ∀ x ∈ m, ikCompare x.key a.key = .lt) :
    m.orderedInsert entryLE a = m ++ [a] := by
  induction m with
  | nil => rfl
  | cons x xs ih =>
    have hx := h x (List.mem_cons_self x xs)
    have hna : ¬ entryLE a x := by
      unfold entryLE
      rw [ikCompare_swap x.key a.key, hx]
      simp [Ordering.swap]
    simp only [List.orderedInsert, if_neg hna, List.cons_append]
    rw [ih fun y hy => h y (List.mem_cons_of_mem _ hy)]

theorem applyFrom_ascending (v : Nat → List Nat) (d : Nat) :
    ∀ n, applyFrom [] (1 + d)
        ((List.range' 1 n).map fun i => WriteOp.putOp [i] (v i))
      = (List.range' 1 n).map fun i => (⟨⟨[i], i + d, .put⟩, v i⟩ : Entry) := by
  intro n
  induction n with
  | zero => rfl
  | succ n ih =>
    rw [List.range'_1_concat, List.map_append, List.map_append]
    simp only [List.map_cons, List.map_nil]
    rw [applyFrom_append, ih]
    simp only [List.length_map, List.length_range']
    unfold MemTable.insert
    rw [orderedInsert_append_of_gt]
    · have harith : 1 + d + n = 1 + n + d := by omega
      rw [show opInternalKey (WriteOp.putOp [1 + n] (v (1 + n))) (1 + d + n)
          = (⟨[1 + n], 1 + d + n, .put⟩ : InternalKey) from rfl, harith]
      rfl
    · intro x hx
      rcases List.mem_map.1 hx with ⟨i, hi, rfl⟩
      rcases List.mem_range'_1.1 hi with ⟨-, hub⟩
      exact ikLT_of_cbLT (cbSingleton_lt (by omega))

theorem takeWhile_eq_nil_of_forall {p : Entry → Bool} {l : List Entry}
    (h : ∀ x ∈ l, p x = false) : l.takeWhile p = [] := by
  cases l with
  | nil => rfl
  | cons a l =>
    rw [List.takeWhile_cons, h a (List.mem_cons_self a l)]
    simp

theorem dropWhile_eq_self_of_forall {p : Entry → Bool} {l : List Entry}
    (h : ∀ x ∈ l, p x = false) : l.dropWhile p = l := by
  cases l with
  | nil => rfl
  | cons a l =>
    rw [List.dropWhile_cons, h a (List.mem_cons_self a l)]
    simp

theorem mergeRuns_scenario (v1 v2 : Nat → List Nat) (n : Nat) (hn : 0 < n) :
    ∀ (k j : Nat),
      mergeRuns
        ((List.range' j k).map fun i => (⟨⟨[i], i, .put⟩, v1 i⟩ : Entry))
        ((List.range' j k).map fun i => (⟨⟨[i], i + n, .put⟩, v2 i⟩ : Entry))
      = ((List.range' j k).map fun i =>
          [(⟨⟨[i], i + n, .put⟩, v2 i⟩ : Entry),
           (⟨⟨[i], i, .put⟩, v1 i⟩ : Entry)]).flatten := by
  intro k
  induction k with
  | zero =>
    intro j
    simp only [List.range'_zero, List.map_nil, List.flatten_nil, mergeRuns]
  | succ k ih =>
    intro j
    rw [List.range'_succ]
    simp only [List.map_cons, List.flatten_cons]
    have hgt : ikCompare (⟨[j], j, .put⟩ : InternalKey) ⟨[j], j + n, .put⟩
        = .gt := ikGT_same_uk_newer (by omega)
    rw [mergeRuns]
    simp only [hgt]
    cases k with
    | zero =>
      simp only [List.range'_zero, List.map_nil, List.flatten_nil,
        List.append_nil]
      rw [mergeRuns]
      simp
    | succ k' =>
      rw [List.range'_succ]
      simp only [List.map_cons]
      have hlt : ikCompare (⟨[j], j, .put⟩ : InternalKey)
          ⟨[j + 1], j + 1 + n, .put⟩ = .lt :=
        ikLT_of_cbLT (cbSingleton_lt (by omega))
      rw [mergeRuns]
      simp only [hlt]
      have := ih (j + 1)
      rw [List.range'_succ] at this
      simp only [List.map_cons, List.flatten_cons] at this
      rw [this]
      simp [List.flatten_cons]

theorem flatten_mem_key_ge {n : Nat} (v1 v2 : Nat → List Nat) (j k : Nat) :
    ∀ x ∈ ((List.range' j k).map fun i =>
        [(⟨⟨[i], i + n, .put⟩, v2 i⟩ : Entry),
         (⟨⟨[i], i, .put⟩, v1 i⟩ : Entry)]).flatten,
      ∃ i, j ≤ i ∧ x.key.userKey = [i] := by
  intro x hx
  rcases List.mem_flatten.1 hx with ⟨sub, hsub, hxsub⟩
  rcases List.mem_map.1 hsub with ⟨i, hi, rfl⟩
  rcases List.mem_range'_1.1 hi with ⟨hlb, -⟩
  rcases List.mem_cons.1 hxsub with rfl | hxsub
  · exact ⟨i, hlb, rfl⟩
  · rcases List.mem_cons.1 hxsub with rfl | hempty
    · exact ⟨i, hlb, rfl⟩
    · exact absurd hempty (List.not_mem_nil x)

theorem compact_scenario (v1 v2 : Nat → List Nat) (n : Nat) (bottom : Bool) :
    ∀ (k j : Nat),
      compact [] bottom
        (((List.range' j k).map fun i =>
          [(⟨⟨[i], i + n, .put⟩, v2 i⟩ : Entry),
           (⟨⟨[i], i, .put⟩, v1 i⟩ : Entry)]).flatten)
      = (List.range' j k).map fun i => (⟨⟨[i], i + n, .put⟩, v2 i⟩ : Entry) := by
  intro k
  induction k with
  | zero => intro j; simp only [List.range'_zero, List.map_nil,
      List.flatten_nil, compact]
  | succ k ih =>
    intro j
    rw [List.range'_succ]
    simp only [List.map_cons, List.flatten_cons, List.cons_append,
      List.nil_append]
    rw [compact]
    have hrest : ∀ x ∈ ((List.range' (j + 1) k).map fun i =>
        [(⟨⟨[i], i + n, .put⟩, v2 i⟩ : Entry),
         (⟨⟨[i], i, .put⟩, v1 i⟩ : Entry)]).flatten,
        (x.key.userKey == ([j] : List Nat)) = false := by
      intro x hx
      rcases flatten_mem_key_ge v1 v2 (j + 1) k x hx with ⟨i, hi, hkey⟩
      rw [hkey]
      simp only [beq_eq_false_iff_ne, ne_eq, List.cons.injEq, and_true]
      omega
    have htw : ((⟨⟨[j], j, .put⟩, v1 j⟩ : Entry) ::
          ((List.range' (j + 1) k).map fun i =>
            [(⟨⟨[i], i + n, .put⟩, v2 i⟩ : Entry),
             (⟨⟨[i], i, .put⟩, v1 i⟩ : Entry)]).flatten).takeWhile
          (fun x => x.key.userKey == [j]) = [⟨⟨[j], j, .put⟩, v1 j⟩] := by
      rw [List.takeWhile_cons]
      simp only [beq_self_eq_true, if_true]
      rw [takeWhile_eq_nil_of_forall hrest]
    have hdw : ((⟨⟨[j], j, .put⟩, v1 j⟩ : Entry) ::
          ((List.range' (j + 1) k).map fun i =>
            [(⟨⟨[i], i + n, .put⟩, v2 i⟩ : Entry),
             (⟨⟨[i], i, .put⟩, v1 i⟩ : Entry)]).flatten).dropWhile
          (fun x => x.key.userKey == [j]) =
          ((List.range' (j + 1) k).map fun i =>
            [(⟨⟨[i], i + n, .put⟩, v2 i⟩ : Entry),
             (⟨⟨[i], i, .put⟩, v1 i⟩ : Entry)]).flatten := by
      rw [List.dropWhile_cons]
      simp only [beq_self_eq_true, if_true]
      exact dropWhile_eq_self_of_forall hrest
    rw [htw, hdw]
    have hcr : compactRun [] bottom (⟨⟨[j], j + n, .put⟩, v2 j⟩ : Entry)
        [⟨⟨[j], j, .put⟩, v1 j⟩] = [⟨⟨[j], j + n, .put⟩, v2 j⟩] := by
      unfold compactRun
      simp only [List.any_cons, List.any_nil]
      rw [show ((ValueType.put == ValueType.merge) = false) from rfl]
      simp only [Bool.or_self, Bool.or_false, Bool.false_eq_true, if_false]
      unfold keepOlds neededBySnapshot
      simp [isDeletion]
      rfl
    rw [hcr, ih (j + 1)]
    rfl

theorem flatten_splitSST (sz : Nat) :
    ∀ (n : Nat) (l : List Entry), l.length ≤ n →
      (splitSST sz l).flatten = l := by
  intro n
  induction n with
  | zero =>
    intro l hl
    rw [List.length_eq_zero.1 (Nat.le_zero.1 hl)]
    simp only [splitSST, List.flatten_nil]
  | succ n ih =>
    intro l hl
    cases l with
    | nil => simp only [splitSST, List.flatten_nil]
    | cons e rest =>
      simp only [splitSST, List.flatten_cons]
      have hlen : (rest.drop sz).length ≤ n := by
        rw [List.length_drop]
        simp only [List.length_cons] at hl
        omega
      rw [ih (rest.drop sz) hlen, List.cons_append, List.take_append_drop]

/-- C6: insert keys `k1..k1000` with values, flush; insert them again with
new values, flush; compacting both files into the next level yields
exactly 1000 live keys, each holding only its second value, and the
resulting level's files (of any chunk size) have pairwise disjoint,
totally ordered key ranges. -/
theorem compaction_scenario_spec (v1 v2 : Nat → List Nat) (sz : Nat) :
    compact [] false
        (mergeRuns
          (flush (applyFrom [] 1
            ((List.range' 1 1000).map fun i => WriteOp.putOp [i] (v1 i))))
          (flush (applyFrom [] 1001
            ((List.range' 1 1000).map fun i => WriteOp.putOp [i] (v2 i)))))
      = ((List.range' 1 1000).map fun i =>
          (⟨⟨[i], i + 1000, .put⟩, v2 i⟩ : Entry)) ∧
    (compact [] false
        (mergeRuns
          (flush (applyFrom [] 1
            ((List.range' 1 1000).map fun i => WriteOp.putOp [i] (v1 i))))
          (flush (applyFrom [] 1001
            ((List.range' 1 1000).map fun i => WriteOp.putOp [i] (v2 i)))))).length
      = 1000 ∧
    (splitSST sz ((List.range' 1 1000).map fun i =>
        (⟨⟨[i], i + 1000, .put⟩, v2 i⟩ : Entry))).flatten
      = ((List.range' 1 1000).map fun i =>
          (⟨⟨[i], i + 1000, .put⟩, v2 i⟩ : Entry)) ∧
    (splitSST sz ((List.range' 1 1000).map fun i =>
        (⟨⟨[i], i + 1000, .put⟩, v2 i⟩ : Entry))).Pairwise
      (fun f g => ∀ a ∈ f, ∀ b ∈ g,
        compareBytes a.key.userKey b.key.userKey = .lt) := by
  have h1 : applyFrom [] 1
      ((List.range' 1 1000).map fun i => WriteOp.putOp [i] (v1 i))
      = (List.range' 1 1000).map fun i => (⟨⟨[i], i + 0, .put⟩, v1 i⟩ : Entry) :=
    applyFrom_ascending v1 0 1000
  have h2 : applyFrom [] 1001
      ((List.range' 1 1000).map fun i => WriteOp.putOp [i] (v2 i))
      = (List.range' 1 1000).map fun i =>
          (⟨⟨[i], i + 1000, .put⟩, v2 i⟩ : Entry) :=
    applyFrom_ascending v2 1000 1000
  have hout : compact [] false
      (mergeRuns
        (flush (applyFrom [] 1
          ((List.range' 1 1000).map fun i => WriteOp.putOp [i] (v1 i))))
        (flush (applyFrom [] 1001
          ((List.range' 1 1000).map fun i => WriteOp.putOp [i] (v2 i)))))
      = (List.range' 1 1000).map fun i =>
          (⟨⟨[i], i + 1000, .put⟩, v2 i⟩ : Entry) := by
    unfold flush
    rw [h1, h2]
    rw [show ((List.range' 1 1000).map fun i =>
        (⟨⟨[i], i + 0, .put⟩, v1 i⟩ : Entry))
        = (List.range' 1 1000).map fun i => (⟨⟨[i], i, .put⟩, v1 i⟩ : Entry)
      from by simp]
    rw [mergeRuns_scenario v1 v2 1000 (by omega) 1000 1]
    exact compact_scenario v1 v2 1000 false 1000 1
  refine ⟨hout, ?_, ?_, ?_⟩
  · rw [hout]
    simp
  · exact flatten_splitSST sz _ _ (le_refl _)
  · have hsorted : ((List.range' 1 1000).map fun i =>
        (⟨⟨[i], i + 1000, .put⟩, v2 i⟩ : Entry)).Pairwise
        (fun a b => compareBytes a.key.userKey b.key.userKey = .lt) := by
      rw [List.pairwise_map]
      exact (List.pairwise_lt_range' 1 1000).imp fun h => cbSingleton_lt h
    have hflat := flatten_splitSST sz
      (((List.range' 1 1000).map fun i =>
        (⟨⟨[i], i + 1000, .put⟩, v2 i⟩ : Entry)).length) _ (le_refl _)
    rw [← hflat] at hsorted
    exact (List.pairwise_flatten.1 hsorted).2

/-- Length of the shared prefix of two byte sequences. -/
def commonPrefixLen : List Nat → List Nat → Nat
  | a :: as, b :: bs => if a = b then commonPrefixLen as bs + 1 else 0
  | _, _ => 0

/-- Modelled from the spec: one encoded data-block record — the length
of the user-key prefix shared with the previous entry, the user-key
suffix, and the raw sequence number, value type and payload (spec §3
"shared-prefix compression", §4.7). -/
structure BlockRecord where
  shared : Nat
  ukSuffix : List Nat
  seq : Nat
  vtype : ValueType
  value : List Nat
deriving DecidableEq

/-- Modelled from the spec: encode the entries of one data block,
prefix-compressing each user key against the previous one (spec §3). -/
def encodeBlock (prev : UserKey) : List Entry → List BlockRecord
  | [] => []
  | e :: rest =>
    let s := commonPrefixLen prev e.key.userKey
    ⟨s, e.key.userKey.drop s, e.key.seq, e.key.vtype, e.value⟩
      :: encodeBlock e.key.userKey rest

/-- Modelled from the spec: decode one data block, reconstructing each
user key from the previous key's prefix and the stored suffix
(spec §4.7 Reader). -/
def decodeBlock (prev : UserKey) : List BlockRecord → List Entry
  | [] => []
  | r :: rest =>
    let uk := prev.take r.shared ++ r.ukSuffix
    ⟨⟨uk, r.seq, r.vtype⟩, r.value⟩ :: decodeBlock uk rest

/-- Modelled from the spec: an SST file — prefix-compressed data blocks
and an index recording each block's last internal key (spec §3 SST
file); `table/block_based_table_builder.cc` is not under `src/`. -/
structure SSTFile where
  blocks : List (List BlockRecord)
  index : List (Option InternalKey)
deriving DecidableEq

/-- Modelled from the spec: the SST writer — split the strictly
increasing entry stream into bounded blocks, prefix-compress each block
from the empty previous key, and index each block by its last key
(spec §4.7 Writer). -/
def writeSST (bsz : Nat) (entries : List Entry) : SSTFile :=
  let chunks := splitSST bsz entries
  ⟨chunks.map (encodeBlock []),
   chunks.map fun c => c.getLast?.map Entry.key⟩

/-- Modelled from the spec: the reader's sequential scan — decode every
data block in index order (spec §4.7 Reader). -/
def readSSTScan (f : SSTFile) : List Entry :=
  (f.blocks.map (decodeBlock [])).flatten

theorem take_cpl_append (prev uk : List Nat) :
    prev.take (commonPrefixLen prev uk)
      ++ uk.drop (commonPrefixLen prev uk) = uk := by
  induction prev generalizing uk with
  | nil => simp [commonPrefixLen]
  | cons p ps ih =>
    cases uk with
    | nil => simp [commonPrefixLen]
    | cons u us =>
      by_cases h : p = u
      · subst h
        simp [commonPrefixLen, ih us]
      · simp [commonPrefixLen, h]

theorem decodeBlock_encodeBlock (l : List Entry) :
    ∀ prev, decodeBlock prev (encodeBlock prev l) = l := by
  induction l with
  | nil => intro prev; rfl
  | cons e rest ih =>
    intro prev
    simp only [encodeBlock, decodeBlock, take_cpl_append]
    rw [ih e.key.userKey]

/-- C7: writing any sequence of entries in strictly increasing
internal-key order through the SST writer and scanning the resulting
file through the reader yields exactly the same entries, in the same
order, with identical keys and values. -/
theorem sst_roundtrip_spec (bsz : Nat) (entries : List Entry)
    (_hinc : entries.Pairwise fun a b => ikCompare a.key b.key = .lt) :
    readSSTScan (writeSST bsz entries) = entries := by
  unfold readSSTScan writeSST
  simp only [List.map_map]
  have hmap : (splitSST bsz entries).map (decodeBlock [] ∘ encodeBlock [])
      = (splitSST bsz entries).map id := by
    apply List.map_congr_left
    intro c _
    exact decodeBlock_encodeBlock c []
  rw [hmap, List.map_id]
  exact flatten_splitSST bsz entries.length entries (le_refl _)

/-- Witness for C7: a two-entry file with block size 1 round-trips. -/
theorem sst_roundtrip_spec_witness :
    readSSTScan (writeSST 0
      [⟨⟨[1], 2, .put⟩, [5]⟩, ⟨⟨[1, 3], 1, .put⟩, [6]⟩])
      = [⟨⟨[1], 2, .put⟩, [5]⟩, ⟨⟨[1, 3], 1, .put⟩, [6]⟩] := by
  apply sst_roundtrip_spec
  constructor
  · intro b hb
    rcases List.mem_singleton.1 hb with rfl
    decide
  · exact List.pairwise_singleton _ _

/-- Modelled from the spec: one cached block — its key
`(file_number, block_offset)`, charge, reference count, the logical
time it was last used, and the decoded block bytes (spec §3 Block Cache
entry, §4.6). -/
structure CacheEntry where
  key : Nat × Nat
  charge : Nat
  refs : Nat
  stamp : Nat
  data : List Nat
deriving DecidableEq

/-- Modelled from the spec: one LRU shard of the block cache
(`cache/lru_cache.cc` is only named in the build script).  Resident
entries with outstanding references live on `inUse`; unreferenced
entries live on `lru` ordered least-recently-used first; `clock` is the
logical recency clock. -/
structure Cache where
  inUse : List CacheEntry
  lru : List CacheEntry
  capacity : Nat
  clock : Nat
deriving DecidableEq

/-- Total charge of all resident entries. -/
def Cache.usage (c : Cache) : Nat :=
  ((c.inUse ++ c.lru).map CacheEntry.charge).sum

/-- Modelled from the spec: evict least-recently-used unreferenced
entries, oldest first, until the usage fits the capacity or no
unreferenced entry remains (spec §4.6); returns the surviving list and
the freed entries. -/
def evictLoop (cap : Nat) : Nat → List CacheEntry →
    List CacheEntry × List CacheEntry
  | _, [] => ([], [])
  | used, e :: rest =>
    if used ≤ cap then (e :: rest, [])
    else
      let p := evictLoop cap (used - e.charge) rest
      (p.1, e :: p.2)

/-- Modelled from the spec: `insert(key, block, charge) -> handle`
(spec §4.6) — the new entry enters `inUse` with one reference (the
returned handle), then eviction runs on the unreferenced LRU list. -/
def Cache.insert (c : Cache) (k : Nat × Nat) (charge : Nat)
    (data : List Nat) : Cache × List CacheEntry :=
  let e : CacheEntry := ⟨k, charge, 1, c.clock, data⟩
  let p := evictLoop c.capacity (c.usage + charge) c.lru
  (⟨e :: c.inUse, p.1, c.capacity, c.clock + 1⟩, p.2)

/-- Modelled from the spec: `lookup(file_number, offset)` (spec §4.6) —
a hit bumps the entry's recency and reference count, pulling it off the
unreferenced LRU list if needed. -/
def Cache.lookup (c : Cache) (k : Nat × Nat) : Cache × Option CacheEntry :=
  match c.inUse.find? (fun e => e.key == k) with
  | some e =>
    (⟨{ e with refs := e.refs + 1, stamp := c.clock }
        :: c.inUse.eraseP (fun x => x.key == k),
      c.lru, c.capacity, c.clock + 1⟩, some e)
  | none =>
    match c.lru.find? (fun e => e.key == k) with
    | some e =>
      (⟨{ e with refs := 1, stamp := c.clock } :: c.inUse,
        c.lru.eraseP (fun x => x.key == k), c.capacity, c.clock + 1⟩, some e)
    | none => (c, none)

/-- Modelled from the spec: releasing a handle (spec §4.6) — a non-last
release only decrements the count; the last release either frees the
entry immediately (cache over capacity) or moves it to the
most-recently-used end of the unreferenced LRU list. -/
def Cache.release (c : Cache) (k : Nat × Nat) : Cache × List CacheEntry :=
  match c.inUse.find? (fun e => e.key == k) with
  | none => (c, [])
  | some e =>
    let rest := c.inUse.eraseP (fun x => x.key == k)
    if 2 ≤ e.refs then
      (⟨{ e with refs := e.refs - 1 } :: rest, c.lru, c.capacity, c.clock⟩, [])
    else if c.capacity < c.usage then
      (⟨rest, c.lru, c.capacity, c.clock⟩, [e])
    else
      (⟨rest, c.lru ++ [{ e with refs := 0, stamp := c.clock }],
        c.capacity, c.clock + 1⟩, [])

/-- The shard invariant: the unreferenced list is in recency order and
holds only unreferenced entries, and every in-use entry carries at least
one reference. -/
def Cache.WF (c : Cache) : Prop :=
  c.lru.Pairwise (fun a b => a.stamp ≤ b.stamp) ∧
  (∀ e ∈ c.lru, e.refs = 0) ∧
  ∀ e ∈ c.inUse, 1 ≤ e.refs

theorem evictLoop_append (cap : Nat) :
    ∀ (lru : List CacheEntry) (used : Nat),
      (evictLoop cap used lru).2 ++ (evictLoop cap used lru).1 = lru := by
  intro lru
  induction lru with
  | nil => intro used; rfl
  | cons e rest ih =>
    intro used
    by_cases h : used ≤ cap
    · simp [evictLoop, h]
    · simp only [evictLoop, h, if_false]
      rw [List.cons_append, ih]

/-- C8: when an insert pushes the total charge above the capacity, every
evicted entry has no outstanding references and is no more recently used
than any surviving unreferenced entry (the least-recently-used
unreferenced entries go first); an entry with a held handle is never
evicted and stays resident for its holders; a release that is not the
last reference frees nothing; and an entry is freed by a release only
when that release drops the last reference. -/
theorem cache_lru_spec (c : Cache) (k : Nat × Nat) (charge : Nat)
    (data : List Nat) (hwf : c.WF) :
    (∀ f ∈ (c.insert k charge data).2, f.refs = 0) ∧
    (∀ f ∈ (c.insert k charge data).2, ∀ r ∈ (c.insert k charge data).1.lru,
      f.stamp ≤ r.stamp) ∧
    (∀ e ∈ c.inUse, e ∈ (c.insert k charge data).1.inUse) ∧
    ((c.insert k charge data).1.WF) ∧
    (∀ e, c.inUse.find? (fun x => x.key == k) = some e → 2 ≤ e.refs →
      (c.release k).2 = [] ∧
      { e with refs := e.refs - 1 } ∈ (c.release k).1.inUse) ∧
    (∀ f ∈ (c.release k).2, f.refs = 1) := by
  obtain ⟨hsort, hzero, huse⟩ := hwf
  have happ := evictLoop_append c.capacity c.lru (c.usage + charge)
  have hsplit := List.pairwise_append.1 (happ ▸ hsort)
  refine ⟨?_, ?_, ?_, ?_, ?_, ?_⟩
  · intro f hf
    apply hzero
    rw [← happ]
    exact List.mem_append_left _ hf
  · intro f hf r hr
    exact hsplit.2.2 f hf r hr
  · intro e he
    exact List.mem_cons_of_mem _ he
  · refine ⟨hsplit.2.1, ?_, ?_⟩
    · intro e he
      apply hzero
      rw [← happ]
      exact List.mem_append_right _ he
    · intro e he
      rcases List.mem_cons.1 he with rfl | he
      · exact le_refl 1
      · exact huse e he
  · intro e he hrefs
    unfold Cache.release
    rw [he]
    simp only [if_pos hrefs]
    exact ⟨trivial, List.mem_cons_self _ _⟩
  · intro f hf
    unfold Cache.release at hf
    cases hfind : c.inUse.find? (fun x => x.key == k) with
    | none =>
      rw [hfind] at hf
      simp at hf
    | some e =>
      rw [hfind] at hf
      have hmem : e ∈ c.inUse := List.mem_of_find?_eq_some hfind
      have h1 := huse e hmem
      by_cases hrefs : 2 ≤ e.refs
      · simp only [if_pos hrefs] at hf
        simp at hf
      · simp only [if_neg hrefs] at hf
        by_cases hcap : c.capacity < c.usage
        · simp only [if_pos hcap] at hf
          rcases List.mem_singleton.1 hf with rfl
          omega
        · simp only [if_neg hcap] at hf
          simp at hf

/-- Witness for C8: inserting a third unit-charge block into a full
two-block cache evicts exactly the least-recently-used unreferenced
block, which carries no references. -/
theorem cache_lru_spec_witness :
    ((Cache.mk [] [⟨(1, 0), 1, 0, 0, [7]⟩, ⟨(2, 0), 1, 0, 1, [8]⟩] 2 2).insert
        (3, 0) 1 [9]).2 = [⟨(1, 0), 1, 0, 0, [7]⟩] ∧
    (⟨(1, 0), 1, 0, 0, [7]⟩ : CacheEntry).refs = 0 := by
  have h := cache_lru_spec
    (Cache.mk [] [⟨(1, 0), 1, 0, 0, [7]⟩, ⟨(2, 0), 1, 0, 1, [8]⟩] 2 2)
    (3, 0) 1 [9]
    (by
      refine ⟨?_, ?_, ?_⟩
      · constructor
        · intro b hb
          rcases List.mem_singleton.1 hb with rfl
          decide
        · exact List.pairwise_singleton _ _
      · intro e he
        rcases List.mem_cons.1 he with rfl | he
        · rfl
        · rcases List.mem_singleton.1 he with rfl
          rfl
      · intro e he
        cases he)
  exact ⟨by decide, h.1 ⟨(1, 0), 1, 0, 0, [7]⟩ (by decide)⟩

end LSM
